import Mathlib

/-!
# Verification of the BIP/MIP qubit-routing model builders

This file gives a shallow embedding of the integer-programming model
builders found in `bip_model.py` (`BIPMappingModel`) and `mip_model.py`
(`MIPMappingModel`) of the qiskit-terra routing passes, and proves or
refutes the frozen specification claims about them.

The embedding represents each built optimization model as a list of
linear constraints over named binary variables, produced by transcribing
the Python loops that call `add_constraint` / `linear_constraints.add`.
Objective functions are represented as lists of (real coefficient,
variable) pairs; a model whose `minimize` is never invoked has objective
`none`.
-/

namespace QiskitBIP

/-- A two-qubit gate acting on a pair of logical qubits.  The fidelity
data attached to the gate node in the source is kept abstract and is
supplied to the objective builder as cost functions. -/
abbrev Gate := Nat × Nat

/-- Named binary decision variables of the routing models, mirroring the
string names `w_t_q_j`, `y_t_p_q_i_j`, `x_t_q_i_j`, `z_t` used in the
source.  `z` doubles as the MIP model's `w^d` variable; `eu` is the MIP
model's edge-used variable. -/
inductive Var : Type
  | w (t q j : Nat)
  | y (t p q i j : Nat)
  | x (t q i j : Nat)
  | z (t : Nat)
  | eu (t i j : Nat)
  deriving DecidableEq, Repr

/-- Comparison sense of a linear constraint (docplex `<=` / `==` / `>=`,
Cplex senses `L` / `E` / `G`). -/
inductive Cmp : Type
  | le
  | eq
  | ge
  deriving DecidableEq, Repr

/-- A linear constraint.  All constraints of both builders have
coefficients in `{+1, -1}`: `pos` lists the variables with coefficient
`+1`, `neg` those with coefficient `-1`. -/
structure LinCon : Type where
  pos : List Var
  neg : List Var
  cmp : Cmp
  rhs : Int
  deriving DecidableEq, Repr

/-- Value of a binary variable under a 0/1 assignment. -/
def bval (b : Bool) : Int := if b then 1 else 0

/-- Sum of the values of a list of variables. -/
def evalSum (a : Var → Bool) (l : List Var) : Int :=
  (l.map fun v => bval (a v)).sum

/-- Satisfaction of a single linear constraint. -/
def LinCon.sat (a : Var → Bool) (c : LinCon) : Prop :=
  match c.cmp with
  | .le => evalSum a c.pos - evalSum a c.neg ≤ c.rhs
  | .eq => evalSum a c.pos - evalSum a c.neg = c.rhs
  | .ge => evalSum a c.pos - evalSum a c.neg ≥ c.rhs

instance (a : Var → Bool) (c : LinCon) : Decidable (c.sat a) := by
  unfold LinCon.sat
  cases c.cmp <;> infer_instance

/-- An assignment is feasible for a model when it satisfies every
constraint of the model. -/
def satAll (a : Var → Bool) (cs : List LinCon) : Prop :=
  ∀ c ∈ cs, c.sat a

instance (a : Var → Bool) (cs : List LinCon) : Decidable (satAll a cs) :=
  List.decidableBAll _ cs

/-!
## Layered schedule builders (C7, C10)

`BIPMappingModel.__init__` inserts `dummy_timesteps` empty layers after
every su4layer except the last; `_CircuitModel.__init__` in
`mip_model.py` reaches the same schedule through index arithmetic.
-/

/-- The layered schedule of `BIPMappingModel.__init__`:

    self.gates = []
    for k, lay in enumerate(self.su4layers):
        self.gates.append(lay)
        if k == len(self.su4layers) - 1: break
        self.gates.extend([[]] * dummy_timesteps)
-/
def buildGatesBIP (layers : List (List Gate)) (dummy : Nat) : List (List Gate) :=
  match layers with
  | [] => []
  | [l] => [l]
  | l :: ls => l :: (List.replicate dummy [] ++ buildGatesBIP ls dummy)

/-- The layered schedule of `_CircuitModel.__init__` in `mip_model.py`:

    new_depth = 1 + (self.depth-1) * (1 + dummy_timesteps)
    for t in range(new_depth):
        if t % (dummy_timesteps + 1) == 0:
            new_gates.append(list(self.gates[t // (dummy_timesteps+1)]))
        else:
            new_gates.append(list())

The Python `new_depth` can be negative (empty range) when the input has
no layers; this is modelled by computing it in `Int` and truncating. -/
def buildGatesMIP (layers : List (List Gate)) (dummy : Nat) : List (List Gate) :=
  (List.range (1 + ((layers.length : Int) - 1) * (1 + dummy)).toNat).map fun t =>
    if t % (dummy + 1) = 0 then layers.getD (t / (dummy + 1)) [] else []

/-- Python list indexing `l[i]` with negative-index semantics: a negative
index counts from the end; an index out of range raises `IndexError`,
modelled as `none`. -/
def pyGet (l : List α) (i : Int) : Option α :=
  if 0 ≤ i then l.get? i.toNat
  else if 0 ≤ (l.length : Int) + i then l.get? ((l.length : Int) + i).toNat
  else none

/-!
## Split-count adjustment and time budget (C5, C6)
-/

/-- The `num_splits` adjustment done in `BIPMappingModel.__init__`
(`numLayers` is `len(self.su4layers)`):

    if self._num_splits == 0: self._num_splits = 1
    elif self._num_splits == -1:
        self._num_splits = max(1, (len(self.su4layers) - 2) // 2)
    if self._num_splits > 1:
        self._num_splits = min(self._num_splits, max(1, len(self.su4layers) - 2))

Python `//` on possibly-negative ints is floor division (`Int.fdiv`). -/
def adjustSplits (numSplits : Int) (numLayers : Nat) : Int :=
  let s₁ : Int :=
    if numSplits = 0 then 1
    else if numSplits = -1 then max 1 (((numLayers : Int) - 2).fdiv 2)
    else numSplits
  if s₁ > 1 then min s₁ (max 1 ((numLayers : Int) - 2)) else s₁

/-- Time limit assigned to heuristic window `split` in
`solve_cpx_problem`:

    time = time_limit * (self._num_splits - split)
           / (self._num_splits * (self._num_splits + 1) / 2)
-/
def windowTimeLimit (numSplits : Nat) (timeLimit : ℚ) (split : Nat) : ℚ :=
  timeLimit * ((numSplits : ℚ) - (split : ℚ)) /
    ((numSplits : ℚ) * ((numSplits : ℚ) + 1) / 2)

/-- Time limit assigned to the final exact model:

    self.problem.set_time_limit(
        time_limit / (self._num_splits * (self._num_splits + 1) / 2))
-/
def exactTimeLimit (numSplits : Nat) (timeLimit : ℚ) : ℚ :=
  timeLimit / ((numSplits : ℚ) * ((numSplits : ℚ) + 1) / 2)

/-- The sequence of all time shares: windows `0 .. S-2` followed by the
exact model's share. -/
def timeShares (numSplits : Nat) (timeLimit : ℚ) : List ℚ :=
  (List.range (numSplits - 1)).map (windowTimeLimit numSplits timeLimit) ++
    [exactTimeLimit numSplits timeLimit]

/-!
## The shared instance data

Both builders work from the same reduced coupling graph and the same
dummy-extended layered schedule.
-/

/-- Instance data consumed by `create_cpx_problem`: the number of
(virtual = physical) qubits, the symmetric directed arc list
(`self._arcs = self._coupling.get_edges()`), the neighbor lists
(`self._coupling.neighbors`), and the dummy-extended layered schedule
(`self.gates`). -/
structure RoutingInst : Type where
  n : Nat
  arcs : List (Nat × Nat)
  nbr : Nat → List Nat
  gates : List (List Gate)

/-- `self.depth`: number of time steps including dummy steps. -/
def RoutingInst.depth (I : RoutingInst) : Nat := I.gates.length

/-- The gates scheduled at time step `t` (`self.gates[t]`). -/
def RoutingInst.gatesAt (I : RoutingInst) (t : Nat) : List Gate := I.gates.getD t []

/-- `self._is_dummy_step(t)`: the time step holds no gates. -/
def RoutingInst.isDummy (I : RoutingInst) (t : Nat) : Bool := (I.gatesAt t).isEmpty

/-- Whether logical qubit `r` takes part in some gate of the layer `gs`. -/
def usedIn (gs : List Gate) (r : Nat) : Bool := gs.any fun g => g.1 == r || g.2 == r

/-- `q_no_gate`: the logical qubits not involved in any gate of layer
`gs` (the source materializes `list(range(n))` and removes each gate's
two qubits; on the duplicate-free `range` list this is a filter). -/
def qNoGate (n : Nat) (gs : List Gate) : List Nat :=
  (List.range n).filter fun r => !(usedIn gs r)

/-!
## BIP exact-model constraints

Transcription of the constraint blocks of
`BIPMappingModel.create_cpx_problem` (exact model), in source order.
-/

/-- `assignment_vqubits_{q}_at_{t}`: each logical qubit occupies exactly
one physical qubit. -/
def bipAssignVCons (I : RoutingInst) : List LinCon :=
  (List.range I.depth).flatMap fun t =>
    (List.range I.n).map fun q =>
      ⟨(List.range I.n).map fun j => Var.w t q j, [], Cmp.eq, 1⟩

/-- `assignment_pqubits_{j}_at_{t}`: each physical qubit hosts exactly
one logical qubit. -/
def bipAssignPCons (I : RoutingInst) : List LinCon :=
  (List.range I.depth).flatMap fun t =>
    (List.range I.n).map fun j =>
      ⟨(List.range I.n).map fun q => Var.w t q j, [], Cmp.eq, 1⟩

/-- `implement_gate_{p}_{q}_at_{t}`: each gate is implemented on exactly
one arc. -/
def bipImplementCons (I : RoutingInst) : List LinCon :=
  (List.range I.depth).flatMap fun t =>
    (I.gatesAt t).map fun g =>
      ⟨I.arcs.map fun a => Var.y t g.1 g.2 a.1 a.2, [], Cmp.eq, 1⟩

/-- The McCormick lower bound `y >= w[t,p,i] + w[t,q,j] - 1`. -/
def mcLB (t p q i j : Nat) : LinCon :=
  ⟨[Var.y t p q i j], [Var.w t p i, Var.w t q j], Cmp.ge, -1⟩

/-- The tightened upper bound `y <= x[t,p,i,i] + x[t,p,i,j]` (and its
symmetric counterpart obtained by swapping the roles of the qubits). -/
def mcUBtight1 (t p q i j : Nat) : LinCon :=
  ⟨[Var.y t p q i j], [Var.x t p i i, Var.x t p i j], Cmp.le, 0⟩

/-- The tightened upper bound `y <= x[t,q,j,i] + x[t,q,j,j]`. -/
def mcUBtight2 (t p q i j : Nat) : LinCon :=
  ⟨[Var.y t p q i j], [Var.x t q j i, Var.x t q j j], Cmp.le, 0⟩

/-- The textbook upper bound `y <= w[t,p,i]`. -/
def mcUBplain1 (t p q i j : Nat) : LinCon :=
  ⟨[Var.y t p q i j], [Var.w t p i], Cmp.le, 0⟩

/-- The textbook upper bound `y <= w[t,q,j]`. -/
def mcUBplain2 (t p q i j : Nat) : LinCon :=
  ⟨[Var.y t p q i j], [Var.w t q j], Cmp.le, 0⟩

/-- Gate-legality constraints for all time steps except the last:
McCormick lower bound plus the tightened upper bounds. -/
def bipMcMainCons (I : RoutingInst) : List LinCon :=
  (List.range (I.depth - 1)).flatMap fun t =>
    (I.gatesAt t).flatMap fun g =>
      I.arcs.flatMap fun a =>
        [mcLB t g.1 g.2 a.1 a.2, mcUBtight1 t g.1 g.2 a.1 a.2,
         mcUBtight2 t g.1 g.2 a.1 a.2]

/-- Gate-legality constraints for the last time step: regular McCormick
(lower bound plus the textbook upper bounds). -/
def bipMcLastCons (I : RoutingInst) : List LinCon :=
  (I.gatesAt (I.depth - 1)).flatMap fun g =>
    I.arcs.flatMap fun a =>
      [mcLB (I.depth - 1) g.1 g.2 a.1 a.2, mcUBplain1 (I.depth - 1) g.1 g.2 a.1 a.2,
       mcUBplain2 (I.depth - 1) g.1 g.2 a.1 a.2]

/-- `flow_out_{q}_{i}_at_{t}`:
`w[t,q,i] == x[t,q,i,i] + sum(x[t,q,i,j] for j in neighbors(i))`. -/
def bipFlowOutCons (I : RoutingInst) : List LinCon :=
  (List.range (I.depth - 1)).flatMap fun t =>
    (List.range I.n).flatMap fun q =>
      (List.range I.n).map fun i =>
        ⟨[Var.w t q i], Var.x t q i i :: (I.nbr i).map fun j => Var.x t q i j,
         Cmp.eq, 0⟩

/-- `flow_in_{q}_{i}_at_{t}`:
`w[t,q,i] == x[t-1,q,i,i] + sum(x[t-1,q,j,i] for j in neighbors(i))`,
for `t` in `range(1, depth)`. -/
def bipFlowInCons (I : RoutingInst) : List LinCon :=
  (List.range (I.depth - 1)).flatMap fun s =>
    (List.range I.n).flatMap fun q =>
      (List.range I.n).map fun i =>
        ⟨[Var.w (s + 1) q i],
         Var.x s q i i :: (I.nbr i).map fun j => Var.x s q j i, Cmp.eq, 0⟩

/-- `swap_{p}_{q}_{i}_{j}_at_{t}`: `x[t,p,i,j] == x[t,q,j,i]` for the
two qubits of a gate at `t`. -/
def bipSwapCons (I : RoutingInst) : List LinCon :=
  (List.range (I.depth - 1)).flatMap fun t =>
    (I.gatesAt t).flatMap fun g =>
      I.arcs.map fun a =>
        ⟨[Var.x t g.1 a.1 a.2], [Var.x t g.2 a.2 a.1], Cmp.eq, 0⟩

/-- `swap_no_gate_{i}_{j}_at_{t}`: swap flow of gate-free qubits
balances on every arc. -/
def bipSwapNoGateCons (I : RoutingInst) : List LinCon :=
  (List.range (I.depth - 1)).flatMap fun t =>
    I.arcs.map fun a =>
      ⟨(qNoGate I.n (I.gatesAt t)).map fun q => Var.x t q a.1 a.2,
       (qNoGate I.n (I.gatesAt t)).map fun q => Var.x t q a.2 a.1, Cmp.eq, 0⟩

/-- `dummy_ts_needed_for_vqubit_{q}_at_{t}`:
`sum(x[t,q,i,j] for (i,j) in arcs) <= z[t]` for dummy steps. -/
def bipDummyNeededCons (I : RoutingInst) : List LinCon :=
  (List.range I.depth).flatMap fun t =>
    if I.isDummy t then
      (List.range I.n).map fun q =>
        ⟨I.arcs.map fun a => Var.x t q a.1 a.2, [Var.z t], Cmp.le, 0⟩
    else []

/-- `dummy_precedence_{t}`: `z[t] >= z[t+1]` for consecutive dummy
steps. -/
def bipDummyPrecCons (I : RoutingInst) : List LinCon :=
  (List.range (I.depth - 1)).flatMap fun t =>
    if I.isDummy t && I.isDummy (t + 1) then
      [⟨[Var.z t], [Var.z (t + 1)], Cmp.ge, 0⟩]
    else []

/-- All constraints of the exact model built by
`BIPMappingModel.create_cpx_problem`, in source order. -/
def bipExactCons (I : RoutingInst) : List LinCon :=
  bipAssignVCons I ++ bipAssignPCons I ++ bipImplementCons I ++
    bipMcMainCons I ++ bipMcLastCons I ++ bipFlowOutCons I ++
    bipFlowInCons I ++ bipSwapCons I ++ bipSwapNoGateCons I ++
    bipDummyNeededCons I ++ bipDummyPrecCons I

/-!
## BIP heuristic window-model constraints

Transcription of the window-model block (`for split in
range(self._num_splits - 1)`) of `BIPMappingModel.create_cpx_problem`.
A window carries its own schedule `self.heur_gates[split]`, its boundary
depth `self.heur_last_layer[split]`, and movement beyond the boundary is
restricted to `self._long_coupling_neighbors`.  The dummy-step test
`self._is_dummy_step` always reads the exact model's schedule
`self.gates`. -/
structure WindowData : Type where
  hgates : List (List Gate)
  B : Nat
  longNbr : Nat → List Nat
  longCost : Nat → Nat → Nat

/-- Number of time steps of the window model (`depth =
len(self.heur_gates[split])`). -/
def WindowData.depth (W : WindowData) : Nat := W.hgates.length

/-- The gates of the window schedule at time step `t`. -/
def WindowData.gatesAt (W : WindowData) (t : Nat) : List Gate := W.hgates.getD t []

/-- Window assignment constraints for logical qubits. -/
def heurAssignVCons (I : RoutingInst) (W : WindowData) : List LinCon :=
  (List.range W.depth).flatMap fun t =>
    (List.range I.n).map fun q =>
      ⟨(List.range I.n).map fun j => Var.w t q j, [], Cmp.eq, 1⟩

/-- Window assignment constraints for physical qubits. -/
def heurAssignPCons (I : RoutingInst) (W : WindowData) : List LinCon :=
  (List.range W.depth).flatMap fun t =>
    (List.range I.n).map fun j =>
      ⟨(List.range I.n).map fun q => Var.w t q j, [], Cmp.eq, 1⟩

/-- Window gate-implementation constraints. -/
def heurImplementCons (I : RoutingInst) (W : WindowData) : List LinCon :=
  (List.range W.depth).flatMap fun t =>
    (W.gatesAt t).map fun g =>
      ⟨I.arcs.map fun a => Var.y t g.1 g.2 a.1 a.2, [], Cmp.eq, 1⟩

/-- Window gate-legality constraints: the McCormick lower bound for
every step, the tightened upper bounds while
`t < self.heur_last_layer[split] - 1`, and the textbook upper bounds
otherwise. -/
def heurMcCons (I : RoutingInst) (W : WindowData) : List LinCon :=
  (List.range W.depth).flatMap fun t =>
    (W.gatesAt t).flatMap fun g =>
      I.arcs.flatMap fun a =>
        mcLB t g.1 g.2 a.1 a.2 ::
          (if t < W.B - 1 then
            [mcUBtight1 t g.1 g.2 a.1 a.2, mcUBtight2 t g.1 g.2 a.1 a.2]
          else
            [mcUBplain1 t g.1 g.2 a.1 a.2, mcUBplain2 t g.1 g.2 a.1 a.2])

/-- Window flow-out constraints: neighbor movement up to the boundary,
long-arc movement beyond it. -/
def heurFlowOutCons (I : RoutingInst) (W : WindowData) : List LinCon :=
  (List.range (W.depth - 1)).flatMap fun t =>
    (List.range I.n).flatMap fun q =>
      (List.range I.n).map fun i =>
        ⟨[Var.w t q i],
         Var.x t q i i ::
           (if t < W.B - 1 then (I.nbr i).map fun j => Var.x t q i j
            else (W.longNbr i).map fun j => Var.x t q i j),
         Cmp.eq, 0⟩

/-- Window flow-in constraints (`for t in range(1, depth)`, with the
exact neighborhood while `t < self.heur_last_layer[split]`). -/
def heurFlowInCons (I : RoutingInst) (W : WindowData) : List LinCon :=
  (List.range (W.depth - 1)).flatMap fun s =>
    (List.range I.n).flatMap fun q =>
      (List.range I.n).map fun i =>
        ⟨[Var.w (s + 1) q i],
         Var.x s q i i ::
           (if s + 1 < W.B then (I.nbr i).map fun j => Var.x s q j i
            else (W.longNbr i).map fun j => Var.x s q j i),
         Cmp.eq, 0⟩

/-- Window gate-pair swap-linking constraints (only for the exact
connectivity part, `t < self.heur_last_layer[split] - 1`). -/
def heurSwapCons (I : RoutingInst) (W : WindowData) : List LinCon :=
  (List.range (W.B - 1)).flatMap fun t =>
    (W.gatesAt t).flatMap fun g =>
      I.arcs.map fun a =>
        ⟨[Var.x t g.1 a.1 a.2], [Var.x t g.2 a.2 a.1], Cmp.eq, 0⟩

/-- Window swap-balance constraints for gate-free qubits (only for the
exact connectivity part). -/
def heurSwapNoGateCons (I : RoutingInst) (W : WindowData) : List LinCon :=
  (List.range (W.B - 1)).flatMap fun t =>
    I.arcs.map fun a =>
      ⟨(qNoGate I.n (W.gatesAt t)).map fun q => Var.x t q a.1 a.2,
       (qNoGate I.n (W.gatesAt t)).map fun q => Var.x t q a.2 a.1, Cmp.eq, 0⟩

/-- Window dummy-step-needed constraints (`for t in
range(self.heur_last_layer[split])`, dummy test on the exact
schedule). -/
def heurDummyNeededCons (I : RoutingInst) (W : WindowData) : List LinCon :=
  (List.range W.B).flatMap fun t =>
    if I.isDummy t then
      (List.range I.n).map fun q =>
        ⟨I.arcs.map fun a => Var.x t q a.1 a.2, [Var.z t], Cmp.le, 0⟩
    else []

/-- Window dummy-precedence constraints (`for t in
range(self.heur_last_layer[split] - 1)`). -/
def heurDummyPrecCons (I : RoutingInst) (W : WindowData) : List LinCon :=
  (List.range (W.B - 1)).flatMap fun t =>
    if I.isDummy t && I.isDummy (t + 1) then
      [⟨[Var.z t], [Var.z (t + 1)], Cmp.ge, 0⟩]
    else []

/-- All constraints of the heuristic window model, in source order. -/
def bipHeurCons (I : RoutingInst) (W : WindowData) : List LinCon :=
  heurAssignVCons I W ++ heurAssignPCons I W ++ heurImplementCons I W ++
    heurMcCons I W ++ heurFlowOutCons I W ++ heurFlowInCons I W ++
    heurSwapCons I W ++ heurSwapNoGateCons I W ++
    heurDummyNeededCons I W ++ heurDummyPrecCons I W

/-!
## MIP model constraints (`mip_model.py`)

`MIPMappingModel.create_cpx_problem` drives a flat Cplex model through
`_IndexCalculator`; variables are identified here by the same names.
The topology is a `_HardwareTopology` built from adjacency lists: the
deduplicated edge set plus its reversal form the arc set, and
`outstar_by_node` / `instar_by_node` are derived from the arcs.  The
`w^d` variable of time step `t` is rendered as `Var.z t`; setting its
lower bound to 1 for a real (non-dummy) step is rendered as the
constraint `z t >= 1`. -/
structure MIPTopo : Type where
  edges : List (Nat × Nat)

/-- `self.arcs = edges + reversed edges`. -/
def MIPTopo.arcs (E : MIPTopo) : List (Nat × Nat) :=
  E.edges ++ E.edges.map fun e => (e.2, e.1)

/-- `outstar_by_node[i] = [v for (u, v) in self.arcs if u == i]`. -/
def MIPTopo.outstar (E : MIPTopo) (i : Nat) : List Nat :=
  E.arcs.filterMap fun a => if a.1 = i then some a.2 else none

/-- `instar_by_node[j] = [u for (u, v) in self.arcs if v == j]`. -/
def MIPTopo.instar (E : MIPTopo) (j : Nat) : List Nat :=
  E.arcs.filterMap fun a => if a.2 = j then some a.1 else none

/-- MIP assignment constraints for logical qubits
(`assignment_lqubits_{q}_{t}`; the comprehension enumerates `q` then
`t`). -/
def mipAssignLCons (I : RoutingInst) : List LinCon :=
  (List.range I.n).flatMap fun q =>
    (List.range I.depth).map fun t =>
      ⟨(List.range I.n).map fun j => Var.w t q j, [], Cmp.eq, 1⟩

/-- MIP assignment constraints for physical qubits
(`assignment_pqubits_{j}_{t}`). -/
def mipAssignPCons (I : RoutingInst) : List LinCon :=
  (List.range I.n).flatMap fun j =>
    (List.range I.depth).map fun t =>
      ⟨(List.range I.n).map fun q => Var.w t q j, [], Cmp.eq, 1⟩

/-- MIP gate-legality link between `w`/`x` and `y`: only upper bounds,
tightened everywhere except the last time step; note the source's
operand order (`[-w, y]`, `[-x_self, -x_move, y]`). -/
def mipLegalityCons (I : RoutingInst) (E : MIPTopo) : List LinCon :=
  (List.range I.depth).flatMap fun t =>
    (I.gatesAt t).flatMap fun g =>
      (List.range I.n).flatMap fun i =>
        (E.outstar i).flatMap fun j =>
          if t = I.depth - 1 then
            [⟨[Var.y t g.1 g.2 i j], [Var.w t g.1 i], Cmp.le, 0⟩,
             ⟨[Var.y t g.1 g.2 i j], [Var.w t g.2 j], Cmp.le, 0⟩]
          else
            [⟨[Var.y t g.1 g.2 i j], [Var.x t g.1 i i, Var.x t g.1 i j], Cmp.le, 0⟩,
             ⟨[Var.y t g.1 g.2 i j], [Var.x t g.2 j j, Var.x t g.2 j i], Cmp.le, 0⟩]

/-- MIP gate-implementation constraints (`assignment_y_{t}_{p}_{q}`). -/
def mipImplementCons (I : RoutingInst) (E : MIPTopo) : List LinCon :=
  (List.range I.depth).flatMap fun t =>
    (I.gatesAt t).map fun g =>
      ⟨E.arcs.map fun a => Var.y t g.1 g.2 a.1 a.2, [], Cmp.eq, 1⟩

/-- MIP gate-pair swap-linking constraints. -/
def mipSwapCons (I : RoutingInst) (E : MIPTopo) : List LinCon :=
  (List.range (I.depth - 1)).flatMap fun t =>
    (I.gatesAt t).flatMap fun g =>
      E.arcs.map fun a =>
        ⟨[Var.x t g.1 a.1 a.2], [Var.x t g.2 a.2 a.1], Cmp.eq, 0⟩

/-- MIP swap-balance constraints for gate-free qubits. -/
def mipSwapNoGateCons (I : RoutingInst) (E : MIPTopo) : List LinCon :=
  (List.range (I.depth - 1)).flatMap fun t =>
    E.arcs.map fun a =>
      ⟨(qNoGate I.n (I.gatesAt t)).map fun q => Var.x t q a.1 a.2,
       (qNoGate I.n (I.gatesAt t)).map fun q => Var.x t q a.2 a.1, Cmp.eq, 0⟩

/-- MIP dummy-step constraints: for a dummy step, `sum(x) <= w^d[t]`
per logical qubit; for a real step, the lower bound of `w^d[t]` is set
to 1 (rendered as `w^d[t] >= 1`). -/
def mipDummyCons (I : RoutingInst) (E : MIPTopo) : List LinCon :=
  (List.range I.depth).flatMap fun t =>
    if I.isDummy t then
      (List.range I.n).map fun p =>
        ⟨E.arcs.map fun a => Var.x t p a.1 a.2, [Var.z t], Cmp.le, 0⟩
    else
      [⟨[Var.z t], [], Cmp.ge, 1⟩]

/-- MIP dummy-precedence constraints. -/
def mipDummyPrecCons (I : RoutingInst) : List LinCon :=
  (List.range (I.depth - 1)).flatMap fun t =>
    if I.isDummy t && I.isDummy (t + 1) then
      [⟨[Var.z t], [Var.z (t + 1)], Cmp.ge, 0⟩]
    else []

/-- MIP line-topology symmetry-breaking constraints (only when the
`line_symm` flag is passed). -/
def mipLineSymmCons (I : RoutingInst) : List LinCon :=
  (List.range (I.n - 1)).map fun h' =>
    let h := h' + 1
    ⟨((List.range h).map fun p => Var.w 0 p 0) ++
       ((List.range (I.n - h)).map fun k => Var.w 0 (h + k) (I.n - 1)),
     [], Cmp.ge, 1⟩

/-- MIP cycle-topology symmetry breaking (`w[0,0,0]` lower bound 1). -/
def mipCycleSymmCons : List LinCon :=
  [⟨[Var.w 0 0 0], [], Cmp.ge, 1⟩]

/-- MIP flow constraints: the source interleaves flow-out (for
`t < depth - 1`) and flow-in (for `t > 0`) in one loop over `t`. -/
def mipFlowCons (I : RoutingInst) (E : MIPTopo) : List LinCon :=
  (List.range I.depth).flatMap fun t =>
    (List.range I.n).flatMap fun q =>
      (if t < I.depth - 1 then
        (List.range I.n).map fun i =>
          ⟨[Var.w t q i],
           Var.x t q i i :: (E.outstar i).map fun j => Var.x t q i j,
           Cmp.eq, 0⟩
      else []) ++
      (if 0 < t then
        (List.range I.n).map fun j =>
          ⟨[Var.w t q j],
           Var.x (t - 1) q j j :: (E.instar j).map fun i => Var.x (t - 1) q i j,
           Cmp.eq, 0⟩
      else [])

/-- `edge_representation` of an edge `(i, j)` at time step `t`: the `y`
variables of every gate on both arc directions, then the `x` variables
of the gate-free qubits on the stored direction. -/
def euRep (I : RoutingInst) (t i j : Nat) : List Var :=
  ((I.gatesAt t).flatMap fun g => [Var.y t g.1 g.2 i j, Var.y t g.1 g.2 j i]) ++
    ((qNoGate I.n (I.gatesAt t)).map fun q => Var.x t q i j)

/-- MIP edge-used definition constraints (`eu_def_{t}_{i}_{j}`). -/
def mipEuCons (I : RoutingInst) (E : MIPTopo) : List LinCon :=
  (List.range (I.depth - 1)).flatMap fun t =>
    E.edges.map fun e =>
      ⟨euRep I t e.1 e.2, [Var.eu t e.1 e.2], Cmp.eq, 0⟩

/-- All constraints of the model built by
`MIPMappingModel.create_cpx_problem`, in source order. -/
def mipCons (I : RoutingInst) (E : MIPTopo) (lineSymm cycleSymm : Bool) :
    List LinCon :=
  mipAssignLCons I ++ mipAssignPCons I ++ mipLegalityCons I E ++
    mipImplementCons I E ++ mipSwapCons I E ++ mipSwapNoGateCons I E ++
    mipDummyCons I E ++ mipDummyPrecCons I ++
    (if lineSymm then mipLineSymmCons I else []) ++
    (if cycleSymm then mipCycleSymmCons else []) ++
    mipFlowCons I E ++ mipEuCons I E

/-!
## Basic lemmas about constraint satisfaction
-/

theorem satAll_nil (a : Var → Bool) : satAll a [] := by
  intro c hc
  simp at hc

theorem satAll_append {a : Var → Bool} {l₁ l₂ : List LinCon} :
    satAll a (l₁ ++ l₂) ↔ satAll a l₁ ∧ satAll a l₂ := by
  constructor
  · intro h
    exact ⟨fun c hc => h c (List.mem_append_left _ hc),
           fun c hc => h c (List.mem_append_right _ hc)⟩
  · rintro ⟨h₁, h₂⟩ c hc
    rcases List.mem_append.mp hc with h | h
    · exact h₁ c h
    · exact h₂ c h

theorem satAll_flatMap {a : Var → Bool} {α : Type} {l : List α}
    {f : α → List LinCon} :
    satAll a (l.flatMap f) ↔ ∀ x ∈ l, satAll a (f x) := by
  constructor
  · intro h x hx c hc
    exact h c (List.mem_flatMap.mpr ⟨x, hx, hc⟩)
  · intro h c hc
    rcases List.mem_flatMap.mp hc with ⟨x, hx, hc'⟩
    exact h x hx c hc'

theorem satAll_map {a : Var → Bool} {α : Type} {l : List α}
    {f : α → LinCon} :
    satAll a (l.map f) ↔ ∀ x ∈ l, (f x).sat a := by
  constructor
  · intro h x hx
    exact h (f x) (List.mem_map.mpr ⟨x, hx, rfl⟩)
  · intro h c hc
    rcases List.mem_map.mp hc with ⟨x, hx, rfl⟩
    exact h x hx

theorem satAll_cons {a : Var → Bool} {c : LinCon} {l : List LinCon} :
    satAll a (c :: l) ↔ c.sat a ∧ satAll a l := by
  constructor
  · intro h
    exact ⟨h c (List.mem_cons_self c l), fun c' hc' => h c' (List.mem_cons_of_mem _ hc')⟩
  · rintro ⟨h₁, h₂⟩ c' hc'
    rcases List.mem_cons.mp hc' with rfl | h
    · exact h₁
    · exact h₂ c' h

theorem satAll_singleton {a : Var → Bool} {c : LinCon} :
    satAll a [c] ↔ c.sat a :=
  ⟨fun h => (satAll_cons.mp h).1, fun h => satAll_cons.mpr ⟨h, satAll_nil a⟩⟩

/-!
## 0/1 sums and the bijection consequence of the assignment rows
-/

@[simp] theorem bval_true : bval true = 1 := rfl

@[simp] theorem bval_false : bval false = 0 := rfl

theorem bval_nonneg (b : Bool) : 0 ≤ bval b := by cases b <;> simp

theorem bval_le_one (b : Bool) : bval b ≤ 1 := by cases b <;> simp

theorem bval_eq_one_iff {b : Bool} : bval b = 1 ↔ b = true := by
  cases b <;> simp

theorem bval_eq_zero_iff {b : Bool} : bval b = 0 ↔ b = false := by
  cases b <;> simp

theorem sum_bval_nonneg {α : Type} (l : List α) (f : α → Bool) :
    0 ≤ (l.map fun j => bval (f j)).sum := by
  induction l with
  | nil => simp
  | cons x xs ih =>
    simp only [List.map_cons, List.sum_cons]
    exact add_nonneg (bval_nonneg _) ih

theorem sum_bval_eq_zero_iff {α : Type} (l : List α) (f : α → Bool) :
    (l.map fun j => bval (f j)).sum = 0 ↔ ∀ j ∈ l, f j = false := by
  induction l with
  | nil => simp
  | cons x xs ih =>
    simp only [List.map_cons, List.sum_cons, List.mem_cons]
    constructor
    · intro h
      have hx : bval (f x) = 0 := by
        nlinarith [bval_nonneg (f x), sum_bval_nonneg xs f]
      have hxs : (xs.map fun j => bval (f j)).sum = 0 := by
        nlinarith [bval_nonneg (f x), sum_bval_nonneg xs f]
      intro j hj
      rcases hj with rfl | hj
      · exact bval_eq_zero_iff.mp hx
      · exact ih.mp hxs j hj
    · intro h
      have hx : f x = false := h x (Or.inl rfl)
      have hxs : (xs.map fun j => bval (f j)).sum = 0 :=
        ih.mpr fun j hj => h j (Or.inr hj)
      rw [hx, hxs, bval_false, add_zero]

theorem sum_bval_range_eq_one_iff (n : Nat) (f : Nat → Bool) :
    ((List.range n).map fun j => bval (f j)).sum = 1 ↔
      ∃! j, j < n ∧ f j = true := by
  induction n with
  | zero => simp
  | succ m ih =>
    rw [List.range_succ]
    simp only [List.map_append, List.sum_append, List.map_cons, List.map_nil,
      List.sum_cons, List.sum_nil, add_zero]
    cases hfm : f m
    · rw [bval_false, add_zero, ih]
      constructor
      · rintro ⟨j, ⟨hj, hfj⟩, hu⟩
        refine ⟨j, ⟨Nat.lt_succ_of_lt hj, hfj⟩, ?_⟩
        rintro k ⟨hk, hfk⟩
        rcases Nat.lt_succ_iff_lt_or_eq.mp hk with hk' | rfl
        · exact hu k ⟨hk', hfk⟩
        · rw [hfm] at hfk; cases hfk
      · rintro ⟨j, ⟨hj, hfj⟩, hu⟩
        have hjm : j ≠ m := by
          rintro rfl; rw [hfm] at hfj; cases hfj
        have hj' : j < m := by omega
        refine ⟨j, ⟨hj', hfj⟩, ?_⟩
        rintro k ⟨hk, hfk⟩
        exact hu k ⟨Nat.lt_succ_of_lt hk, hfk⟩
    · rw [bval_true]
      constructor
      · intro h
        have h0 : ((List.range m).map fun j => bval (f j)).sum = 0 := by
          nlinarith [sum_bval_nonneg (List.range m) f]
        have hall := (sum_bval_eq_zero_iff (List.range m) f).mp h0
        refine ⟨m, ⟨Nat.lt_succ_self m, hfm⟩, ?_⟩
        rintro k ⟨hk, hfk⟩
        rcases Nat.lt_succ_iff_lt_or_eq.mp hk with hk' | rfl
        · have := hall k (List.mem_range.mpr hk')
          rw [this] at hfk; cases hfk
        · rfl
      · rintro ⟨j, ⟨hj, hfj⟩, hu⟩
        have h0 : ((List.range m).map fun k => bval (f k)).sum = 0 := by
          rw [sum_bval_eq_zero_iff]
          intro k hk
          cases hfk : f k
          · rfl
          · exfalso
            have h1 := hu k ⟨Nat.lt_succ_of_lt (List.mem_range.mp hk), hfk⟩
            have h2 := hu m ⟨Nat.lt_succ_self m, hfm⟩
            have : k = m := by rw [h1, h2]
            subst this
            exact absurd (List.mem_range.mp hk) (by omega)
        rw [h0, zero_add]

/-- The `w[t,·,·]` assignment is a bijection between the logical and
physical qubit sets at time step `t`. -/
def wBijAt (a : Var → Bool) (n t : Nat) : Prop :=
  (∀ q < n, ∃! j, j < n ∧ a (Var.w t q j) = true) ∧
  (∀ j < n, ∃! q, q < n ∧ a (Var.w t q j) = true)

/-- The logical-qubit assignment row constraint of time step `t`,
qubit `q` (identical in all three builders). -/
def rowCon (n t q : Nat) : LinCon :=
  ⟨(List.range n).map fun j => Var.w t q j, [], Cmp.eq, 1⟩

/-- The physical-qubit assignment column constraint of time step `t`,
qubit `j`. -/
def colCon (n t j : Nat) : LinCon :=
  ⟨(List.range n).map fun q => Var.w t q j, [], Cmp.eq, 1⟩

theorem rowCon_sat_iff (a : Var → Bool) (n t q : Nat) :
    (rowCon n t q).sat a ↔ ∃! j, j < n ∧ a (Var.w t q j) = true := by
  have h := sum_bval_range_eq_one_iff n fun j => a (Var.w t q j)
  unfold rowCon LinCon.sat evalSum
  simpa [List.map_map, Function.comp_def] using h

theorem colCon_sat_iff (a : Var → Bool) (n t j : Nat) :
    (colCon n t j).sat a ↔ ∃! q, q < n ∧ a (Var.w t q j) = true := by
  have h := sum_bval_range_eq_one_iff n fun q => a (Var.w t q j)
  unfold colCon LinCon.sat evalSum
  simpa [List.map_map, Function.comp_def] using h

theorem mem_bipAssignV {I : RoutingInst} {t q : Nat}
    (ht : t < I.depth) (hq : q < I.n) :
    rowCon I.n t q ∈ bipAssignVCons I :=
  List.mem_flatMap.mpr ⟨t, List.mem_range.mpr ht,
    List.mem_map.mpr ⟨q, List.mem_range.mpr hq, rfl⟩⟩

theorem mem_bipAssignP {I : RoutingInst} {t j : Nat}
    (ht : t < I.depth) (hj : j < I.n) :
    colCon I.n t j ∈ bipAssignPCons I :=
  List.mem_flatMap.mpr ⟨t, List.mem_range.mpr ht,
    List.mem_map.mpr ⟨j, List.mem_range.mpr hj, rfl⟩⟩

theorem mem_heurAssignV {I : RoutingInst} {W : WindowData} {t q : Nat}
    (ht : t < W.depth) (hq : q < I.n) :
    rowCon I.n t q ∈ heurAssignVCons I W :=
  List.mem_flatMap.mpr ⟨t, List.mem_range.mpr ht,
    List.mem_map.mpr ⟨q, List.mem_range.mpr hq, rfl⟩⟩

theorem mem_heurAssignP {I : RoutingInst} {W : WindowData} {t j : Nat}
    (ht : t < W.depth) (hj : j < I.n) :
    colCon I.n t j ∈ heurAssignPCons I W :=
  List.mem_flatMap.mpr ⟨t, List.mem_range.mpr ht,
    List.mem_map.mpr ⟨j, List.mem_range.mpr hj, rfl⟩⟩

theorem mem_mipAssignL {I : RoutingInst} {t q : Nat}
    (ht : t < I.depth) (hq : q < I.n) :
    rowCon I.n t q ∈ mipAssignLCons I :=
  List.mem_flatMap.mpr ⟨q, List.mem_range.mpr hq,
    List.mem_map.mpr ⟨t, List.mem_range.mpr ht, rfl⟩⟩

theorem mem_mipAssignP {I : RoutingInst} {t j : Nat}
    (ht : t < I.depth) (hj : j < I.n) :
    colCon I.n t j ∈ mipAssignPCons I :=
  List.mem_flatMap.mpr ⟨j, List.mem_range.mpr hj,
    List.mem_map.mpr ⟨t, List.mem_range.mpr ht, rfl⟩⟩

theorem bipExact_of_assignV {I : RoutingInst} {c : LinCon}
    (h : c ∈ bipAssignVCons I) : c ∈ bipExactCons I := by
  unfold bipExactCons
  simp only [List.mem_append]
  tauto

theorem bipExact_of_assignP {I : RoutingInst} {c : LinCon}
    (h : c ∈ bipAssignPCons I) : c ∈ bipExactCons I := by
  unfold bipExactCons
  simp only [List.mem_append]
  tauto

theorem bipHeur_of_assignV {I : RoutingInst} {W : WindowData} {c : LinCon}
    (h : c ∈ heurAssignVCons I W) : c ∈ bipHeurCons I W := by
  unfold bipHeurCons
  simp only [List.mem_append]
  tauto

theorem bipHeur_of_assignP {I : RoutingInst} {W : WindowData} {c : LinCon}
    (h : c ∈ heurAssignPCons I W) : c ∈ bipHeurCons I W := by
  unfold bipHeurCons
  simp only [List.mem_append]
  tauto

theorem mip_of_assignL {I : RoutingInst} {E : MIPTopo} {ls cs : Bool} {c : LinCon}
    (h : c ∈ mipAssignLCons I) : c ∈ mipCons I E ls cs := by
  unfold mipCons
  simp only [List.mem_append]
  tauto

theorem mip_of_assignP {I : RoutingInst} {E : MIPTopo} {ls cs : Bool} {c : LinCon}
    (h : c ∈ mipAssignPCons I) : c ∈ mipCons I E ls cs := by
  unfold mipCons
  simp only [List.mem_append]
  tauto

/-- If a model contains the row and column assignment constraints for
time step `t`, any feasible assignment is a bijection at `t`. -/
theorem wBijAt_of_cons {a : Var → Bool} {cs : List LinCon} {n t : Nat}
    (hsat : satAll a cs)
    (hrow : ∀ q < n, rowCon n t q ∈ cs)
    (hcol : ∀ j < n, colCon n t j ∈ cs) :
    wBijAt a n t := by
  constructor
  · intro q hq
    exact (rowCon_sat_iff a n t q).mp (hsat _ (hrow q hq))
  · intro j hj
    exact (colCon_sat_iff a n t j).mp (hsat _ (hcol j hj))

/-- **C1.** Every model built by the builders — the exact BIP model,
every heuristic window model, and the MIP model — contains, for every
time step `t` of that model, the constraint that each logical qubit's
`w`-row sums to 1 and each physical qubit's `w`-column sums to 1; hence
in every feasible assignment of such a model, `w[t,·,·]` is a bijection
between the logical and the physical qubit sets. -/
theorem c1_assignment_bijection
    (I : RoutingInst) (W : WindowData) (E : MIPTopo) (ls cs : Bool) :
    (∀ t < I.depth, ∀ q < I.n, rowCon I.n t q ∈ bipExactCons I) ∧
    (∀ t < I.depth, ∀ j < I.n, colCon I.n t j ∈ bipExactCons I) ∧
    (∀ t < W.depth, ∀ q < I.n, rowCon I.n t q ∈ bipHeurCons I W) ∧
    (∀ t < W.depth, ∀ j < I.n, colCon I.n t j ∈ bipHeurCons I W) ∧
    (∀ t < I.depth, ∀ q < I.n, rowCon I.n t q ∈ mipCons I E ls cs) ∧
    (∀ t < I.depth, ∀ j < I.n, colCon I.n t j ∈ mipCons I E ls cs) ∧
    (∀ a, satAll a (bipExactCons I) → ∀ t < I.depth, wBijAt a I.n t) ∧
    (∀ a, satAll a (bipHeurCons I W) → ∀ t < W.depth, wBijAt a I.n t) ∧
    (∀ a, satAll a (mipCons I E ls cs) → ∀ t < I.depth, wBijAt a I.n t) := by
  refine ⟨fun t ht q hq => bipExact_of_assignV (mem_bipAssignV ht hq),
          fun t ht j hj => bipExact_of_assignP (mem_bipAssignP ht hj),
          fun t ht q hq => bipHeur_of_assignV (mem_heurAssignV ht hq),
          fun t ht j hj => bipHeur_of_assignP (mem_heurAssignP ht hj),
          fun t ht q hq => mip_of_assignL (mem_mipAssignL ht hq),
          fun t ht j hj => mip_of_assignP (mem_mipAssignP ht hj),
          fun a hsat t ht => ?_, fun a hsat t ht => ?_, fun a hsat t ht => ?_⟩
  · exact wBijAt_of_cons hsat
      (fun q hq => bipExact_of_assignV (mem_bipAssignV ht hq))
      (fun j hj => bipExact_of_assignP (mem_bipAssignP ht hj))
  · exact wBijAt_of_cons hsat
      (fun q hq => bipHeur_of_assignV (mem_heurAssignV ht hq))
      (fun j hj => bipHeur_of_assignP (mem_heurAssignP ht hj))
  · exact wBijAt_of_cons hsat
      (fun q hq => mip_of_assignL (mem_mipAssignL ht hq))
      (fun j hj => mip_of_assignP (mem_mipAssignP ht hj))

/-!
## C5: the time budget split
-/

theorem sum_sub_range (n : Nat) :
    ((List.range n).map fun (i : Nat) => ((n : ℚ) - (i : ℚ))).sum = n * (n + 1) / 2 := by
  induction n with
  | zero => simp
  | succ m ih =>
    rw [List.sum_range_succ]
    have hsplit : ((List.range m).map fun (i : Nat) => (((m + 1 : Nat) : ℚ) - (i : ℚ))).sum
        = ((List.range m).map fun (i : Nat) => ((m : ℚ) - (i : ℚ))).sum
          + ((List.range m).map fun _ => (1 : ℚ)).sum := by
      rw [← List.sum_map_add]
      congr 1
      apply List.map_congr_left
      intro i _
      push_cast
      ring
    have hconst : ((List.range m).map fun _ => (1 : ℚ)).sum = m := by
      rw [List.map_const', List.sum_replicate, List.length_range, nsmul_eq_mul,
        mul_one]
    rw [hsplit, ih, hconst]
    push_cast
    ring

theorem timeShares_eq (S : Nat) (T : ℚ) (hS : 1 ≤ S) :
    timeShares S T = (List.range S).map fun (i : Nat) =>
      T * ((S : ℚ) - (i : ℚ)) / ((S : ℚ) * ((S : ℚ) + 1) / 2) := by
  cases S with
  | zero => omega
  | succ M =>
    unfold timeShares windowTimeLimit exactTimeLimit
    rw [List.range_succ, List.map_append, Nat.succ_sub_one]
    congr 1
    simp only [List.map_cons, List.map_nil]
    have : ((M + 1 : Nat) : ℚ) - (M : ℚ) = 1 := by push_cast; ring
    rw [this, mul_one]

theorem getD_range_map (f : Nat → ℚ) (S k : Nat) (hk : k < S) :
    ((List.range S).map f).getD k 0 = f k := by
  rw [List.getD_eq_getElem?_getD]
  simp [List.getElem?_map, List.getElem?_range, hk]

/-- **C5.** With split count `S > 1` and total time limit `T > 0`,
heuristic window `i` receives the time limit `T·(S−i)/(S(S+1)/2)`, the
exact model receives `T·1/(S(S+1)/2)`, the `S` shares are strictly
decreasing and sum to `T`; with `S = 1` the exact model receives the
whole limit. -/
theorem c5_time_budget (S : Nat) (T : ℚ) (hS : 1 < S) (hT : 0 < T) :
    (∀ i, i < S - 1 → windowTimeLimit S T i =
        T * ((S : ℚ) - i) / ((S : ℚ) * ((S : ℚ) + 1) / 2)) ∧
    exactTimeLimit S T = T * 1 / ((S : ℚ) * ((S : ℚ) + 1) / 2) ∧
    (timeShares S T).length = S ∧
    (∀ k, k + 1 < S → (timeShares S T).getD (k + 1) 0 < (timeShares S T).getD k 0) ∧
    (timeShares S T).sum = T ∧
    (∀ T' : ℚ, exactTimeLimit 1 T' = T') := by
  have hS1 : (1 : ℚ) ≤ (S : ℚ) := by exact_mod_cast Nat.one_le_iff_ne_zero.mpr (by omega)
  have hSpos : (0 : ℚ) < (S : ℚ) := lt_of_lt_of_le one_pos hS1
  have hNpos : (0 : ℚ) < (S : ℚ) * ((S : ℚ) + 1) / 2 := by positivity
  refine ⟨fun i _ => rfl, ?_, ?_, ?_, ?_, ?_⟩
  · unfold exactTimeLimit
    rw [mul_one]
  · rw [timeShares_eq S T (le_of_lt hS)]
    simp
  · intro k hk
    rw [timeShares_eq S T (le_of_lt hS), getD_range_map _ _ _ (by omega),
      getD_range_map _ _ _ (by omega)]
    have hlt : ((S : ℚ) - ((k + 1 : Nat) : ℚ)) < ((S : ℚ) - (k : ℚ)) := by
      push_cast
      linarith
    have hmul : T * ((S : ℚ) - ((k + 1 : Nat) : ℚ)) < T * ((S : ℚ) - (k : ℚ)) :=
      mul_lt_mul_of_pos_left hlt hT
    exact div_lt_div_of_pos_right hmul hNpos
  · rw [timeShares_eq S T (le_of_lt hS)]
    have hstep : ∀ i ∈ List.range S,
        T * ((S : ℚ) - i) / ((S : ℚ) * ((S : ℚ) + 1) / 2)
          = (T / ((S : ℚ) * ((S : ℚ) + 1) / 2)) * ((S : ℚ) - i) := by
      intro i _
      ring
    rw [List.map_congr_left hstep, List.sum_map_mul_left, sum_sub_range]
    field_simp
  · intro T'
    unfold exactTimeLimit
    norm_num

/-!
## C6: the split-count adjustment
-/

/-- **C6.** With `num_splits = -1` the split count becomes
`max(1, (L-2) // 2)` (floor division); any requested count above 1 is
clamped to at most `max(1, L-2)`; and for circuits with at most two real
layers the resulting split count is always 1. -/
theorem c6_split_adjustment (L : Nat) :
    (adjustSplits (-1) L = max 1 (((L : Int) - 2).fdiv 2)) ∧
    (∀ ns : Int, 1 < ns → adjustSplits ns L ≤ max 1 ((L : Int) - 2)) ∧
    (L ≤ 2 → ∀ ns : Int, -1 ≤ ns → adjustSplits ns L = 1) := by
  have hfd : ∀ x : Int, x.fdiv 2 = x / 2 := fun x => Int.fdiv_eq_ediv x (by norm_num)
  refine ⟨?_, ?_, ?_⟩
  · unfold adjustSplits
    simp only [hfd]
    norm_num
    omega
  · intro ns hns
    unfold adjustSplits
    simp only [hfd]
    have h0 : ¬ ns = 0 := by omega
    have h1 : ¬ ns = -1 := by omega
    simp only [h0, h1, if_false]
    omega
  · intro hL ns hns
    unfold adjustSplits
    simp only [hfd]
    rcases eq_or_lt_of_le hns with h | h
    · simp only [← h]
      norm_num
      omega
    · interval_cases L <;> omega

/-!
## C7: shape of the layered schedule
-/

/-- `getD` of a mapped range list. -/
theorem getD_range_map' {α : Type} (f : Nat → α) (d : α) (S k : Nat)
    (hk : k < S) : ((List.range S).map f).getD k d = f k := by
  have hlen : k < ((List.range S).map f).length := by
    simpa using hk
  rw [List.getD_eq_getElem _ _ hlen]
  simp [hk]

/-- The BIP schedule in closed form: real layer `k` sits at position
`k * (D + 1)`, every other position is a dummy step. -/
theorem buildGatesBIP_canonical (D : Nat) :
    ∀ layers : List (List Gate), layers ≠ [] →
    buildGatesBIP layers D = (List.range ((layers.length - 1) * (D + 1) + 1)).map
      fun t => if t % (D + 1) = 0 then layers.getD (t / (D + 1)) [] else [] := by
  intro layers
  induction layers with
  | nil => intro h; exact absurd rfl h
  | cons l ls ih =>
    intro _
    cases ls with
    | nil =>
      have h1 : List.range 1 = [0] := rfl
      simp [buildGatesBIP, h1]
    | cons l2 ls2 =>
      have hstep : buildGatesBIP (l :: l2 :: ls2) D
          = (l :: List.replicate D []) ++ buildGatesBIP (l2 :: ls2) D := by
        rw [List.cons_append]
        rfl
      rw [hstep, ih (by simp)]
      have hlen : ((l :: l2 :: ls2).length - 1) * (D + 1) + 1
          = (D + 1) + (((l2 :: ls2).length - 1) * (D + 1) + 1) := by
        simp only [List.length_cons, Nat.add_sub_cancel]
        ring
      conv_rhs => rw [hlen, List.range_add, List.map_append]
      congr 1
      · -- the first `D+1` positions: the head layer followed by `D` dummies
        rw [List.range_succ_eq_map, List.map_cons, List.map_map]
        congr 1
        · simp
        · refine Eq.symm (List.eq_replicate_iff.mpr ⟨by simp, ?_⟩)
          intro x hx
          rcases List.mem_map.mp hx with ⟨t, ht, rfl⟩
          have htD : t < D := List.mem_range.mp ht
          have hmod : (t + 1) % (D + 1) = t + 1 := Nat.mod_eq_of_lt (by omega)
          simp [Function.comp, hmod]
      · -- the remaining positions follow the tail's schedule
        rw [List.map_map]
        apply List.map_congr_left
        intro k _
        have hmod : ((D + 1) + k) % (D + 1) = k % (D + 1) := Nat.add_mod_left _ _
        have hdiv : ((D + 1) + k) / (D + 1) = k / (D + 1) + 1 :=
          Nat.add_div_left k (by omega)
        simp only [Function.comp, hmod, hdiv]
        by_cases hk : k % (D + 1) = 0 <;> simp [hk]

/-- The MIP schedule agrees with the closed form on nonempty input. -/
theorem buildGatesMIP_canonical (D : Nat) (layers : List (List Gate))
    (h : layers ≠ []) :
    buildGatesMIP layers D = (List.range ((layers.length - 1) * (D + 1) + 1)).map
      fun t => if t % (D + 1) = 0 then layers.getD (t / (D + 1)) [] else [] := by
  obtain ⟨L0, ls, rfl⟩ : ∃ L0 ls, layers = L0 :: ls := by
    cases layers with
    | nil => exact absurd rfl h
    | cons L0 ls => exact ⟨L0, ls, rfl⟩
  unfold buildGatesMIP
  congr 1
  have hcast : (1 + (((L0 :: ls).length : Int) - 1) * (1 + D))
      = ((ls.length * (D + 1) + 1 : Nat) : Int) := by
    push_cast
    simp only [List.length_cons]
    push_cast
    ring
  rw [hcast, Int.toNat_natCast]
  simp

/-- **C7.** For a nonempty list of real two-qubit-gate layers and `D`
dummy steps, both schedule builders produce a schedule of depth
`L + D·(L-1)` in which position `t` holds the real layer `t/(D+1)` when
`(D+1) ∣ t` and a dummy step otherwise; dummy steps therefore only sit
between real layers and the final step is a real layer. -/
theorem c7_layered_schedule (layers : List (List Gate)) (D : Nat)
    (hne : layers ≠ []) (hreal : ∀ l ∈ layers, l ≠ []) :
    (buildGatesBIP layers D).length = layers.length + D * (layers.length - 1) ∧
    buildGatesMIP layers D = buildGatesBIP layers D ∧
    (∀ t, t < layers.length + D * (layers.length - 1) →
      (buildGatesBIP layers D).getD t [] =
        if (D + 1) ∣ t then layers.getD (t / (D + 1)) [] else []) ∧
    (∀ t, t < layers.length + D * (layers.length - 1) →
      ((buildGatesBIP layers D).getD t [] = [] ↔ ¬ (D + 1) ∣ t)) ∧
    (D + 1) ∣ (layers.length + D * (layers.length - 1) - 1) := by
  obtain ⟨M, hM⟩ : ∃ M, layers.length = M + 1 := by
    cases layers with
    | nil => exact absurd rfl hne
    | cons L0 ls => exact ⟨ls.length, by simp⟩
  have hlen : (layers.length - 1) * (D + 1) + 1
      = layers.length + D * (layers.length - 1) := by
    rw [hM]
    simp only [Nat.add_sub_cancel]
    ring
  have hcanon := buildGatesBIP_canonical D layers hne
  refine ⟨?_, ?_, ?_, ?_, ?_⟩
  · rw [hcanon]
    simpa using hlen
  · rw [buildGatesMIP_canonical D layers hne, hcanon]
  · intro t ht
    rw [hcanon, getD_range_map' _ _ _ _ (by omega)]
    by_cases hmod : t % (D + 1) = 0
    · rw [if_pos hmod, if_pos (Nat.dvd_iff_mod_eq_zero.mpr hmod)]
    · rw [if_neg hmod, if_neg (fun hdvd => hmod (Nat.dvd_iff_mod_eq_zero.mp hdvd))]
  · intro t ht
    rw [hcanon, getD_range_map' _ _ _ _ (by omega)]
    constructor
    · intro hval hdvd
      rw [if_pos (Nat.dvd_iff_mod_eq_zero.mp hdvd)] at hval
      have hdivlt : t / (D + 1) < layers.length := by
        have h1 : t ≤ (layers.length - 1) * (D + 1) := by omega
        have h2 : t / (D + 1) ≤ ((layers.length - 1) * (D + 1)) / (D + 1) :=
          Nat.div_le_div_right h1
        rw [Nat.mul_div_cancel _ (by omega)] at h2
        omega
      have hmem : layers.getD (t / (D + 1)) [] ∈ layers := by
        rw [List.getD_eq_getElem _ _ hdivlt]
        exact List.getElem_mem hdivlt
      exact hreal _ hmem hval
    · intro hdvd
      rw [if_neg (fun h => hdvd (Nat.dvd_iff_mod_eq_zero.mpr h))]
  · rw [hM]
    have : M + 1 + D * (M + 1 - 1) - 1 = M * (D + 1) := by
      simp only [Nat.add_sub_cancel]
      have : M + 1 + D * M - 1 = M + D * M := by omega
      rw [this]
      ring
    rw [this]
    exact ⟨M, by ring⟩

/-!
## C10: the `self.gates[self.depth - 1]` access
-/

/-- Python indexing at `depth - 1` succeeds exactly on nonempty lists. -/
theorem pyGet_last_isSome {α : Type} (l : List α) (h : l ≠ []) :
    (pyGet l ((l.length : Int) - 1)).isSome = true := by
  have hlen : 1 ≤ l.length := List.length_pos.mpr h
  unfold pyGet
  rw [if_pos (by omega : (0 : Int) ≤ (l.length : Int) - 1)]
  have htn : ((l.length : Int) - 1).toNat = l.length - 1 := by omega
  rw [htn]
  have hlt : l.length - 1 < l.length := by omega
  rw [List.get?_eq_getElem?, List.getElem?_eq_getElem hlt]
  rfl

/-- **C10.** `create_cpx_problem` reads `self.gates[self.depth - 1]`
while building the last-step gate-legality constraints.  When the
circuit has no two-qubit-gate layer the schedule is empty and the access
(an index of `-1` into an empty list) raises `IndexError`; with at least
one layer the access is always in bounds. -/
theorem c10_last_layer_access (D : Nat) :
    (buildGatesBIP [] D = [] ∧
      pyGet (buildGatesBIP [] D) (((buildGatesBIP [] D).length : Int) - 1)
        = none) ∧
    (∀ layers : List (List Gate), layers ≠ [] →
      (pyGet (buildGatesBIP layers D)
        (((buildGatesBIP layers D).length : Int) - 1)).isSome = true) := by
  constructor
  · exact ⟨rfl, rfl⟩
  · intro layers hne
    apply pyGet_last_isSome
    cases layers with
    | nil => exact absurd rfl hne
    | cons l ls =>
      cases ls with
      | nil => simp [buildGatesBIP]
      | cons l2 ls2 => simp [buildGatesBIP]

/-!
## Objective functions (C2, C8)

An objective is a list of (real coefficient, variable) pairs; its value
under an assignment is the weighted sum.  A built model whose
`mdl.minimize` is never invoked keeps no objective, rendered as `none`.
The fidelity quantities looked up while building the error objective
(`_max_expected_fidelity`, `_max_expected_mirrored_fidelity`,
`_cx_fidelity`, `_avg_cx_fidelity`) are abstract parameters keyed the
same way the source keys them (the gate node is determined by the time
step and logical-qubit pair). -/
abbrev ObjExpr := List (ℝ × Var)

/-- Value of an objective expression under a 0/1 assignment. -/
noncomputable def objVal (a : Var → Bool) (e : ObjExpr) : ℝ :=
  (e.map fun cv => cv.1 * (bval (a cv.2) : ℝ)).sum

/-- The fidelity oracle of `BIPMappingModel`. -/
structure FidelityData : Type where
  mef : Nat → Gate → Nat → Nat → ℝ
  mefm : Nat → Gate → Nat → Nat → ℝ
  cxf : Nat → Nat → ℝ
  avgCxf : ℝ

/-- The three objective kinds of `create_cpx_problem`. -/
inductive Objective : Type
  | depth
  | gateError
  | balanced
  deriving DecidableEq

/-- The `z`-count terms `coeff * sum(z[t] for dummy t)`. -/
def bipZTerms (I : RoutingInst) (c : ℝ) : ObjExpr :=
  (List.range I.depth).flatMap fun t =>
    if I.isDummy t then [(c, Var.z t)] else []

/-- The error expression of the exact model (`objective in
("gate_error", "balanced")` branch, lines building `objexr`): per
non-final step, for each gate and arc the `y` cost
`-log(maxExpectedFidelity)` and the mirroring correction
`(-log(mirrored) - (-log(plain)))/2` on `x[t,q,i,j]`; for each unused
qubit the swap cost `-3/2 * log(cxFidelity)` on its movement variables;
and for the final step the `y` costs alone. -/
noncomputable def bipErrorTerms (I : RoutingInst) (F : FidelityData) : ObjExpr :=
  ((List.range (I.depth - 1)).flatMap fun t =>
    ((I.gatesAt t).flatMap fun g =>
      I.arcs.flatMap fun a =>
        [(-Real.log (F.mef t g a.1 a.2), Var.y t g.1 g.2 a.1 a.2),
         ((-Real.log (F.mefm t g a.1 a.2) - -Real.log (F.mef t g a.1 a.2)) / 2,
          Var.x t g.2 a.1 a.2)]) ++
    ((List.range I.n).flatMap fun q =>
      if usedIn (I.gatesAt t) q then []
      else
        (List.range I.n).flatMap fun i =>
          (I.nbr i).map fun j =>
            ((-3 : ℝ) / 2 * Real.log (F.cxf i j), Var.x t q i j))) ++
  ((I.gatesAt (I.depth - 1)).flatMap fun g =>
    I.arcs.map fun a =>
      (-Real.log (F.mef (I.depth - 1) g a.1 a.2),
       Var.y (I.depth - 1) g.1 g.2 a.1 a.2))

/-- The depth expression of the exact model: used dummy steps plus a
`0.01` tie-break per movement variable. -/
noncomputable def bipDepthTerms (I : RoutingInst) : ObjExpr :=
  bipZTerms I 1 ++
    ((List.range (I.depth - 1)).flatMap fun t =>
      (List.range I.n).flatMap fun q =>
        I.arcs.map fun a => ((0.01 : ℝ), Var.x t q a.1 a.2))

/-- The minimization objective the builder installs on the exact model
(`mdl.minimize` is reached in every branch there). -/
noncomputable def bipExactObjective (I : RoutingInst) (F : FidelityData)
    (obj : Objective) (depthWeight : ℝ) : Option ObjExpr :=
  match obj with
  | .depth => some (bipDepthTerms I)
  | .gateError => some (bipErrorTerms I F)
  | .balanced => some (bipErrorTerms I F ++ bipZTerms I depthWeight)

/-- Window `z`-count terms (only up to the boundary). -/
def heurZTerms (I : RoutingInst) (W : WindowData) (c : ℝ) : ObjExpr :=
  (List.range W.B).flatMap fun t =>
    if I.isDummy t then [(c, Var.z t)] else []

/-- The error expression computed for a window model: exact costs below
the boundary, and beyond it `y` costs plus the averaged long-arc swap
approximation `-3/2 * log(avgCxFidelity) * distance`. -/
noncomputable def heurErrorTerms (I : RoutingInst) (W : WindowData)
    (F : FidelityData) : ObjExpr :=
  ((List.range (W.depth - 1)).flatMap fun t =>
    if t < W.B then
      ((W.gatesAt t).flatMap fun g =>
        I.arcs.flatMap fun a =>
          [(-Real.log (F.mef t g a.1 a.2), Var.y t g.1 g.2 a.1 a.2),
           ((-Real.log (F.mefm t g a.1 a.2) - -Real.log (F.mef t g a.1 a.2)) / 2,
            Var.x t g.2 a.1 a.2)]) ++
      ((List.range I.n).flatMap fun q =>
        if usedIn (W.gatesAt t) q then []
        else
          (List.range I.n).flatMap fun i =>
            (I.nbr i).map fun j =>
              ((-3 : ℝ) / 2 * Real.log (F.cxf i j), Var.x t q i j))
    else
      ((W.gatesAt t).flatMap fun g =>
        I.arcs.map fun a =>
          (-Real.log (F.mef t g a.1 a.2), Var.y t g.1 g.2 a.1 a.2)) ++
      ((List.range I.n).flatMap fun q =>
        (List.range I.n).flatMap fun i =>
          (W.longNbr i).map fun j =>
            ((-3 : ℝ) / 2 * Real.log F.avgCxf * (W.longCost i j : ℝ),
             Var.x t q i j))) ++
  ((W.gatesAt (W.depth - 1)).flatMap fun g =>
    I.arcs.map fun a =>
      (-Real.log (F.mef (W.depth - 1) g a.1 a.2),
       Var.y (W.depth - 1) g.1 g.2 a.1 a.2))

/-- The minimization objective the builder installs on a heuristic
window model.  In the `depth` branch the `mdl.minimize(objexr)` call
sits inside the innermost accumulation loop, so the (full) objective is
installed only when that loop body runs at least once.  In the
`gate_error` branch the expression is computed but `mdl.minimize` is
only reached inside the `if objective == "balanced"` block, so no
objective is ever installed. -/
noncomputable def bipHeurObjective (I : RoutingInst) (W : WindowData)
    (F : FidelityData) (obj : Objective) (depthWeight : ℝ) : Option ObjExpr :=
  match obj with
  | .depth =>
      if 0 < W.B - 1 ∧ 0 < I.n ∧ I.arcs ≠ [] then
        some (heurZTerms I W 1 ++
          ((List.range (W.B - 1)).flatMap fun t =>
            (List.range I.n).flatMap fun q =>
              I.arcs.map fun a => ((0.01 : ℝ), Var.x t q a.1 a.2)))
      else none
  | .gateError => none
  | .balanced => some (heurErrorTerms I W F ++ heurZTerms I W depthWeight)

theorem objVal_append (a : Var → Bool) (e₁ e₂ : ObjExpr) :
    objVal a (e₁ ++ e₂) = objVal a e₁ + objVal a e₂ := by
  unfold objVal
  rw [List.map_append, List.sum_append]

theorem objVal_zero_coeff (a : Var → Bool) (I : RoutingInst) :
    objVal a (bipZTerms I 0) = 0 := by
  unfold objVal
  apply List.sum_eq_zero
  intro x hx
  rcases List.mem_map.mp hx with ⟨⟨c, v⟩, hcv, rfl⟩
  rcases List.mem_flatMap.mp hcv with ⟨t, _, hmem⟩
  by_cases hd : I.isDummy t
  · simp only [bipZTerms, hd, if_true, List.mem_singleton] at hmem
    rw [Prod.mk.injEq] at hmem
    rw [hmem.1, zero_mul]
  · simp [hd] at hmem

/-- **C2** (code bug).  The exact model built with objective
`'gate_error'` receives the error expression as its minimization
objective, but every heuristic window model receives none at all: the
`mdl.minimize(objexr)` call of the window objective block sits inside
the `if objective == "balanced"` branch. -/
theorem c2_gate_error_objective (I : RoutingInst) (W : WindowData)
    (F : FidelityData) (depthWeight : ℝ) :
    bipExactObjective I F Objective.gateError depthWeight
      = some (bipErrorTerms I F) ∧
    bipHeurObjective I W F Objective.gateError depthWeight = none :=
  ⟨rfl, rfl⟩

/-- **C8** (code bug).  On the exact model the objectives of
`'balanced'` with `depth_obj_weight = 0` and of `'gate_error'` are equal
as functions of the variables; on a heuristic window model the two
settings differ, because `'gate_error'` never installs an objective
while `'balanced'` does. -/
theorem c8_balanced_zero_weight (I : RoutingInst) (W : WindowData)
    (F : FidelityData) :
    (∀ a : Var → Bool,
      (bipExactObjective I F Objective.balanced 0).map (objVal a)
        = (bipExactObjective I F Objective.gateError 0).map (objVal a)) ∧
    bipHeurObjective I W F Objective.balanced 0
      ≠ bipHeurObjective I W F Objective.gateError 0 := by
  constructor
  · intro a
    show some (objVal a (bipErrorTerms I F ++ bipZTerms I 0))
        = some (objVal a (bipErrorTerms I F))
    rw [objVal_append, objVal_zero_coeff, add_zero]
  · show some _ ≠ none
    simp

/-!
## Construction of the heuristic windows (`__init__`, lines 138-166)
-/

/-- `split_size = max(1, max(1, len(self.su4layers) - 2) // self._num_splits)`. -/
def splitSize (numLayers numSplits : Nat) : Nat :=
  max 1 (max 1 (numLayers - 2) / numSplits)

/-- One pass of the window-construction loop: appends each su4layer,
follows it with `D` dummy steps while before the split point `sp`, and
records the boundary depth when the split point is reached:

    for k, lay in enumerate(self.su4layers):
        self.heur_gates[i].append(lay)
        if k < split_size * (i + 1):
            self.heur_gates[i].extend([[]] * dummy_timesteps)
        elif k == split_size * (i + 1):
            self.heur_last_layer[i] = len(self.heur_gates[i])
-/
def heurBuild (layers : List (List Gate)) (D sp : Nat) :
    List (List Gate) × Nat :=
  layers.enum.foldl
    (fun acc kl =>
      let acc1 := acc.1 ++ [kl.2]
      if kl.1 < sp then (acc1 ++ List.replicate D [], acc.2)
      else if kl.1 = sp then (acc1, acc1.length)
      else (acc1, acc.2))
    ([], 0)

/-- Pointwise minimum of optional distances. -/
def optMin : Option Nat → Option Nat → Option Nat
  | none, b => b
  | some a, none => some a
  | some a, some b => some (min a b)

/-- One Bellman-Ford relaxation step of the all-distances map from a
fixed source. -/
def distStep (nbr : Nat → List Nat) (d : Nat → Option Nat) :
    Nat → Option Nat :=
  fun v => ((nbr v).map fun u => (d u).map (· + 1)).foldl optMin (d v)

/-- Graph distance (`self._coupling.distance(i, j)`), by `n` rounds of
relaxation from source `i`. -/
def couplingDist (nbr : Nat → List Nat) (n i j : Nat) : Option Nat :=
  (distStep nbr)^[n] (fun v => if v = i then some 0 else none) j

/-- `self._long_coupling_neighbors[i]`: the targets `j ≠ i` within graph
distance `dummy_timesteps` of `i`, in ascending order as produced by the
double loop over `range(num_pqubits)`. -/
def longNbrOf (nbr : Nat → List Nat) (n D i : Nat) : List Nat :=
  (List.range n).filter fun j =>
    decide (i ≠ j) && (couplingDist nbr n i j).any fun d => decide (d ≤ D)

/-- `self._long_arcs_cost[(i, j)]`: the recorded graph distance. -/
def longCostOf (nbr : Nat → List Nat) (n i j : Nat) : Nat :=
  (couplingDist nbr n i j).getD 0

/-- The window data of split `i`. -/
def windowOf (layers : List (List Gate)) (D S n : Nat)
    (nbr : Nat → List Nat) (i : Nat) : WindowData :=
  let hb := heurBuild layers D (splitSize layers.length S * (i + 1))
  ⟨hb.1, hb.2, longNbrOf nbr n D, longCostOf nbr n⟩

/-!
## C4: the forward-fixing of solved window variables
-/

/-- The variables whose bounds `solve_cpx_problem` copies from the
solved window into the next model (lines 785-818): for every time step
`t` below the boundary, all `w` variables, the `y` variables of the
gates of `t`, for `t < boundary - 1` the `x` variables over each
physical qubit's neighbors plus itself, and the `z` variable of a dummy
step. -/
def fixedVars (I : RoutingInst) (W : WindowData) : List Var :=
  (List.range W.B).flatMap fun t =>
    ((List.range I.n).flatMap fun q =>
      (List.range I.n).map fun j => Var.w t q j) ++
    ((W.gatesAt t).flatMap fun g =>
      I.arcs.map fun a => Var.y t g.1 g.2 a.1 a.2) ++
    (if t < W.B - 1 then
      (List.range I.n).flatMap fun q =>
        (List.range I.n).flatMap fun i =>
          (I.nbr i ++ [i]).map fun j => Var.x t q i j
     else []) ++
    (if I.isDummy t then [Var.z t] else [])

/-- The effect of the fixing loop on the next model's variable bounds:
each fixed variable gets `lb = ub = solution value`, every other
variable's bounds are untouched. -/
def applyFix (I : RoutingInst) (W : WindowData) (sol : Var → ℚ)
    (bounds : Var → ℚ × ℚ) : Var → ℚ × ℚ :=
  fun v => if v ∈ fixedVars I W then (sol v, sol v) else bounds v

/-- **C4.** The set of variables fixed into the next model is exactly:
all `w[t,·,·]` with `t` below the window boundary, the `y` variables of
gates at such `t`, the `x[t,·,i,j]` with `j` a neighbor of `i` or `i`
itself for `t < boundary - 1`, and `z[t]` for dummy `t` below the
boundary; fixed variables receive both bounds equal to the solved value
and no other variable's bounds change. -/
theorem c4_window_fixing (I : RoutingInst) (W : WindowData) (sol : Var → ℚ)
    (bounds : Var → ℚ × ℚ) :
    (∀ v : Var, v ∈ fixedVars I W ↔
      ((∃ t, t < W.B ∧ ∃ q, q < I.n ∧ ∃ j, j < I.n ∧ v = Var.w t q j) ∨
       (∃ t, t < W.B ∧ ∃ g ∈ W.gatesAt t, ∃ a ∈ I.arcs,
         v = Var.y t g.1 g.2 a.1 a.2) ∨
       (∃ t, t < W.B - 1 ∧ ∃ q, q < I.n ∧ ∃ i, i < I.n ∧
         ∃ j, (j ∈ I.nbr i ∨ j = i) ∧ v = Var.x t q i j) ∨
       (∃ t, t < W.B ∧ I.isDummy t = true ∧ v = Var.z t))) ∧
    (∀ v ∈ fixedVars I W, applyFix I W sol bounds v = (sol v, sol v)) ∧
    (∀ v, v ∉ fixedVars I W → applyFix I W sol bounds v = bounds v) := by
  refine ⟨fun v => ?_, fun v hv => if_pos hv, fun v hv => if_neg hv⟩
  constructor
  · intro hv
    rcases List.mem_flatMap.mp hv with ⟨t, htmem, hin⟩
    have ht : t < W.B := List.mem_range.mp htmem
    rcases List.mem_append.mp hin with habc | hz
    · rcases List.mem_append.mp habc with hab | hx
      · rcases List.mem_append.mp hab with hw | hy
        · rcases List.mem_flatMap.mp hw with ⟨q, hqmem, hw2⟩
          rcases List.mem_map.mp hw2 with ⟨j, hjmem, rfl⟩
          exact Or.inl ⟨t, ht, q, List.mem_range.mp hqmem, j,
            List.mem_range.mp hjmem, rfl⟩
        · rcases List.mem_flatMap.mp hy with ⟨g, hg, hy2⟩
          rcases List.mem_map.mp hy2 with ⟨a, ha, rfl⟩
          exact Or.inr (Or.inl ⟨t, ht, g, hg, a, ha, rfl⟩)
      · by_cases htB : t < W.B - 1
        · rw [if_pos htB] at hx
          rcases List.mem_flatMap.mp hx with ⟨q, hq, hx2⟩
          rcases List.mem_flatMap.mp hx2 with ⟨i, hi, hx3⟩
          rcases List.mem_map.mp hx3 with ⟨j, hj, rfl⟩
          refine Or.inr (Or.inr (Or.inl ⟨t, htB, q, List.mem_range.mp hq, i,
            List.mem_range.mp hi, j, ?_, rfl⟩))
          rcases List.mem_append.mp hj with h | h
          · exact Or.inl h
          · exact Or.inr (List.mem_singleton.mp h)
        · rw [if_neg htB] at hx
          exact absurd hx (List.not_mem_nil _)
    · by_cases hd : I.isDummy t
      · rw [if_pos hd] at hz
        exact Or.inr (Or.inr (Or.inr ⟨t, ht, hd, List.mem_singleton.mp hz⟩))
      · rw [if_neg hd] at hz
        exact absurd hz (List.not_mem_nil _)
  · rintro (⟨t, ht, q, hq, j, hj, rfl⟩ | ⟨t, ht, g, hg, a, ha, rfl⟩ |
      ⟨t, ht, q, hq, i, hi, j, hj, rfl⟩ | ⟨t, ht, hd, rfl⟩)
    · exact List.mem_flatMap.mpr ⟨t, List.mem_range.mpr ht,
        List.mem_append.mpr (Or.inl (List.mem_append.mpr (Or.inl
          (List.mem_append.mpr (Or.inl (List.mem_flatMap.mpr
            ⟨q, List.mem_range.mpr hq,
             List.mem_map.mpr ⟨j, List.mem_range.mpr hj, rfl⟩⟩))))))⟩
    · exact List.mem_flatMap.mpr ⟨t, List.mem_range.mpr ht,
        List.mem_append.mpr (Or.inl (List.mem_append.mpr (Or.inl
          (List.mem_append.mpr (Or.inr
            (List.mem_flatMap.mpr ⟨g, hg, List.mem_map.mpr ⟨a, ha, rfl⟩⟩))))))⟩
    · refine List.mem_flatMap.mpr ⟨t, List.mem_range.mpr (by omega),
        List.mem_append.mpr (Or.inl (List.mem_append.mpr (Or.inr ?_)))⟩
      rw [if_pos ht]
      refine List.mem_flatMap.mpr ⟨q, List.mem_range.mpr hq,
        List.mem_flatMap.mpr ⟨i, List.mem_range.mpr hi,
          List.mem_map.mpr ⟨j, ?_, rfl⟩⟩⟩
      rcases hj with h | rfl
      · exact List.mem_append.mpr (Or.inl h)
      · exact List.mem_append.mpr (Or.inr (List.mem_singleton.mpr rfl))
    · refine List.mem_flatMap.mpr ⟨t, List.mem_range.mpr ht,
        List.mem_append.mpr (Or.inr ?_)⟩
      rw [if_pos hd]
      exact List.mem_singleton.mpr rfl

/-!
## C3: the McCormick gate-legality constraints
-/

theorem bipExact_of_mcMain {I : RoutingInst} {c : LinCon}
    (h : c ∈ bipMcMainCons I) : c ∈ bipExactCons I := by
  unfold bipExactCons
  simp only [List.mem_append]
  tauto

theorem bipExact_of_mcLast {I : RoutingInst} {c : LinCon}
    (h : c ∈ bipMcLastCons I) : c ∈ bipExactCons I := by
  unfold bipExactCons
  simp only [List.mem_append]
  tauto

theorem bipHeur_of_mc {I : RoutingInst} {W : WindowData} {c : LinCon}
    (h : c ∈ heurMcCons I W) : c ∈ bipHeurCons I W := by
  unfold bipHeurCons
  simp only [List.mem_append]
  tauto

/-- **C3 (amended).** Exact model: gates at `t < depth - 1` get the
McCormick lower bound and the tightened upper bounds, gates at the last
step get the lower bound and the textbook upper bounds.  Window model:
every gate gets the lower bound; the tightened upper bounds appear
exactly for `t < heur_last_layer - 1` and the textbook ones otherwise —
in particular the gate layer at `t = heur_last_layer - 1`, although it
lies before the boundary, receives the textbook bounds. -/
theorem c3_mccormick_linking (I : RoutingInst) (W : WindowData) :
    (∀ t, t < I.depth - 1 → ∀ g ∈ I.gatesAt t, ∀ a ∈ I.arcs,
      mcLB t g.1 g.2 a.1 a.2 ∈ bipExactCons I ∧
      mcUBtight1 t g.1 g.2 a.1 a.2 ∈ bipExactCons I ∧
      mcUBtight2 t g.1 g.2 a.1 a.2 ∈ bipExactCons I) ∧
    (∀ g ∈ I.gatesAt (I.depth - 1), ∀ a ∈ I.arcs,
      mcLB (I.depth - 1) g.1 g.2 a.1 a.2 ∈ bipExactCons I ∧
      mcUBplain1 (I.depth - 1) g.1 g.2 a.1 a.2 ∈ bipExactCons I ∧
      mcUBplain2 (I.depth - 1) g.1 g.2 a.1 a.2 ∈ bipExactCons I) ∧
    (∀ t, t < W.depth → ∀ g ∈ W.gatesAt t, ∀ a ∈ I.arcs,
      mcLB t g.1 g.2 a.1 a.2 ∈ bipHeurCons I W ∧
      (t < W.B - 1 →
        mcUBtight1 t g.1 g.2 a.1 a.2 ∈ bipHeurCons I W ∧
        mcUBtight2 t g.1 g.2 a.1 a.2 ∈ bipHeurCons I W) ∧
      (¬ t < W.B - 1 →
        mcUBplain1 t g.1 g.2 a.1 a.2 ∈ bipHeurCons I W ∧
        mcUBplain2 t g.1 g.2 a.1 a.2 ∈ bipHeurCons I W)) := by
  refine ⟨fun t ht g hg a ha => ?_, fun g hg a ha => ?_, fun t ht g hg a ha => ?_⟩
  · have hbase : ∀ c ∈ [mcLB t g.1 g.2 a.1 a.2, mcUBtight1 t g.1 g.2 a.1 a.2,
        mcUBtight2 t g.1 g.2 a.1 a.2], c ∈ bipMcMainCons I := by
      intro c hc
      exact List.mem_flatMap.mpr ⟨t, List.mem_range.mpr ht,
        List.mem_flatMap.mpr ⟨g, hg, List.mem_flatMap.mpr ⟨a, ha, hc⟩⟩⟩
    exact ⟨bipExact_of_mcMain (hbase _ (by simp)),
           bipExact_of_mcMain (hbase _ (by simp)),
           bipExact_of_mcMain (hbase _ (by simp))⟩
  · have hbase : ∀ c ∈ [mcLB (I.depth - 1) g.1 g.2 a.1 a.2,
        mcUBplain1 (I.depth - 1) g.1 g.2 a.1 a.2,
        mcUBplain2 (I.depth - 1) g.1 g.2 a.1 a.2], c ∈ bipMcLastCons I := by
      intro c hc
      exact List.mem_flatMap.mpr ⟨g, hg, List.mem_flatMap.mpr ⟨a, ha, hc⟩⟩
    exact ⟨bipExact_of_mcLast (hbase _ (by simp)),
           bipExact_of_mcLast (hbase _ (by simp)),
           bipExact_of_mcLast (hbase _ (by simp))⟩
  · have hbase : ∀ c ∈ mcLB t g.1 g.2 a.1 a.2 ::
        (if t < W.B - 1 then
          [mcUBtight1 t g.1 g.2 a.1 a.2, mcUBtight2 t g.1 g.2 a.1 a.2]
        else
          [mcUBplain1 t g.1 g.2 a.1 a.2, mcUBplain2 t g.1 g.2 a.1 a.2]),
        c ∈ heurMcCons I W := by
      intro c hc
      exact List.mem_flatMap.mpr ⟨t, List.mem_range.mpr ht,
        List.mem_flatMap.mpr ⟨g, hg, List.mem_flatMap.mpr ⟨a, ha, hc⟩⟩⟩
    refine ⟨bipHeur_of_mc (hbase _ (List.mem_cons_self _ _)), ?_, ?_⟩
    · intro htB
      constructor
      · apply bipHeur_of_mc (hbase _ ?_)
        apply List.mem_cons_of_mem
        rw [if_pos htB]
        simp
      · apply bipHeur_of_mc (hbase _ ?_)
        apply List.mem_cons_of_mem
        rw [if_pos htB]
        simp
    · intro htB
      constructor
      · apply bipHeur_of_mc (hbase _ ?_)
        apply List.mem_cons_of_mem
        rw [if_neg htB]
        simp
      · apply bipHeur_of_mc (hbase _ ?_)
        apply List.mem_cons_of_mem
        rw [if_neg htB]
        simp

/-- The C3 counterexample instance: 4 two-qubit layers on the 2-qubit
line, no dummy steps, 2 splits. -/
def layersC3 : List (List Gate) := [[(0, 1)], [(0, 1)], [(0, 1)], [(0, 1)]]

/-- Neighbor lists of the single-edge coupling graph. -/
def nbrC3 : Nat → List Nat := fun i => if i = 0 then [1] else if i = 1 then [0] else []

/-- The exact-model instance of the counterexample. -/
def instC3 : RoutingInst := ⟨2, [(0, 1), (1, 0)], nbrC3, buildGatesBIP layersC3 0⟩

/-- The single heuristic window of the counterexample. -/
def winC3 : WindowData := windowOf layersC3 0 2 2 nbrC3 0

/-- **C3 (counterexample).** With two splits of this four-layer circuit
the window boundary is `heur_last_layer = 2`; the gate at `t = 1` lies
strictly before the boundary and before the last step, yet the window
model does not contain the tightened upper bound for it — it contains
the textbook bound instead. -/
theorem c3_boundary_counterexample :
    adjustSplits 2 layersC3.length = 2 ∧
    winC3.B = 2 ∧
    (0, 1) ∈ winC3.gatesAt 1 ∧
    (0, 1) ∈ instC3.arcs ∧
    1 < winC3.B ∧
    1 < winC3.depth - 1 ∧
    mcUBtight1 1 0 1 0 1 ∉ bipHeurCons instC3 winC3 ∧
    mcUBplain1 1 0 1 0 1 ∈ bipHeurCons instC3 winC3 := by
  decide

/-!
## C9: equivalence of the BIP and MIP constraint systems

The claims compare the exact DOcplex model with the flat Cplex model on
the same circuit and coupling graph.  `SharedValid` packages the
relationship between the two builders' instance data: the BIP arc list
and neighbor lists are the ones derived from the MIP topology, and the
schedule comes from a well-formed circuit (gate qubits in range,
distinct, and disjoint within a layer).
-/

/-- Well-formedness of the shared instance data. -/
structure SharedValid (I : RoutingInst) (E : MIPTopo) : Prop where
  arcs_eq : I.arcs = E.arcs
  nbr_eq : ∀ i, i < I.n → I.nbr i = E.outstar i
  arcs_lt : ∀ a ∈ I.arcs, a.1 < I.n ∧ a.2 < I.n
  arcs_irrefl : ∀ a ∈ I.arcs, a.1 ≠ a.2
  arcs_nodup : I.arcs.Nodup
  arcs_symm : ∀ a ∈ I.arcs, (a.2, a.1) ∈ I.arcs
  gates_lt : ∀ lay ∈ I.gates, ∀ g ∈ lay, g.1 < I.n ∧ g.2 < I.n
  gates_ne : ∀ lay ∈ I.gates, ∀ g ∈ lay, g.1 ≠ g.2
  gates_disj : ∀ lay ∈ I.gates, lay.Pairwise
    (fun g g' => g.1 ≠ g'.1 ∧ g.1 ≠ g'.2 ∧ g.2 ≠ g'.1 ∧ g.2 ≠ g'.2)

/-- The extension of a BIP-feasible assignment to the MIP variable
space: `w^d` is forced to 1 on real steps, and each `eu` takes the value
of its defining sum. -/
def extendMIP (I : RoutingInst) (a : Var → Bool) : Var → Bool := fun v =>
  match v with
  | Var.z t => if I.isDummy t then a (Var.z t) else true
  | Var.eu t i j => decide (evalSum a (euRep I t i j) = 1)
  | Var.w t q j => a (Var.w t q j)
  | Var.y t p q i j => a (Var.y t p q i j)
  | Var.x t q i j => a (Var.x t q i j)

@[simp] theorem extendMIP_w (I : RoutingInst) (a : Var → Bool) (t q j : Nat) :
    extendMIP I a (Var.w t q j) = a (Var.w t q j) := rfl

@[simp] theorem extendMIP_y (I : RoutingInst) (a : Var → Bool) (t p q i j : Nat) :
    extendMIP I a (Var.y t p q i j) = a (Var.y t p q i j) := rfl

@[simp] theorem extendMIP_x (I : RoutingInst) (a : Var → Bool) (t q i j : Nat) :
    extendMIP I a (Var.x t q i j) = a (Var.x t q i j) := rfl

theorem extendMIP_z_dummy (I : RoutingInst) (a : Var → Bool) {t : Nat}
    (h : I.isDummy t = true) : extendMIP I a (Var.z t) = a (Var.z t) := by
  simp [extendMIP, h]

/-- Satisfaction of a constraint is invariant under assignments that
agree on the constraint's variables. -/
theorem LinCon.sat_congr {a a' : Var → Bool} {c : LinCon}
    (hpos : ∀ v ∈ c.pos, a' v = a v) (hneg : ∀ v ∈ c.neg, a' v = a v) :
    c.sat a ↔ c.sat a' := by
  have hp : evalSum a' c.pos = evalSum a c.pos := by
    unfold evalSum
    apply congrArg
    apply List.map_congr_left
    intro v hv
    rw [hpos v hv]
  have hn : evalSum a' c.neg = evalSum a c.neg := by
    unfold evalSum
    apply congrArg
    apply List.map_congr_left
    intro v hv
    rw [hneg v hv]
  unfold LinCon.sat
  cases c.cmp <;> rw [hp, hn]

theorem mem_outstar {E : MIPTopo} {i j : Nat} :
    j ∈ E.outstar i ↔ (i, j) ∈ E.arcs := by
  unfold MIPTopo.outstar
  rw [List.mem_filterMap]
  constructor
  · rintro ⟨⟨u, v⟩, huv, hval⟩
    by_cases h : u = i
    · rw [if_pos h] at hval
      rcases Option.some.injEq _ _ ▸ hval with rfl
      rw [← h]
      simpa using huv
    · rw [if_neg h] at hval
      cases hval
  · intro h
    exact ⟨(i, j), h, by simp⟩

theorem mem_instar {E : MIPTopo} {i j : Nat} :
    j ∈ E.instar i ↔ (j, i) ∈ E.arcs := by
  unfold MIPTopo.instar
  rw [List.mem_filterMap]
  constructor
  · rintro ⟨⟨u, v⟩, huv, hval⟩
    by_cases h : v = i
    · rw [if_pos h] at hval
      rcases Option.some.injEq _ _ ▸ hval with rfl
      rw [← h]
      simpa using huv
    · rw [if_neg h] at hval
      cases hval
  · intro h
    exact ⟨(j, i), h, by simp⟩

/-- In-stars and out-stars of a symmetric duplicate-free topology are
permutations of one another. -/
theorem instar_perm_outstar {I : RoutingInst} {E : MIPTopo}
    (V : SharedValid I E) (i : Nat) :
    (E.instar i).Perm (E.outstar i) := by
  have harcs : E.arcs.Nodup := V.arcs_eq ▸ V.arcs_nodup
  have hod : (E.outstar i).Nodup := by
    unfold MIPTopo.outstar
    apply List.Nodup.filterMap _ harcs
    intro a b j hja hjb
    rcases a with ⟨ua, va⟩
    rcases b with ⟨ub, vb⟩
    by_cases ha : ua = i
    · by_cases hb : ub = i
      · rw [if_pos ha] at hja
        rw [if_pos hb] at hjb
        have h1 : va = j := Option.some.inj (Option.mem_def.mp hja)
        have h2 : vb = j := Option.some.inj (Option.mem_def.mp hjb)
        rw [ha, hb, h1, h2]
      · rw [if_neg hb] at hjb
        cases hjb
    · rw [if_neg ha] at hja
      cases hja
  have hid : (E.instar i).Nodup := by
    unfold MIPTopo.instar
    apply List.Nodup.filterMap _ harcs
    intro a b j hja hjb
    rcases a with ⟨ua, va⟩
    rcases b with ⟨ub, vb⟩
    by_cases ha : va = i
    · by_cases hb : vb = i
      · rw [if_pos ha] at hja
        rw [if_pos hb] at hjb
        have h1 : ua = j := Option.some.inj (Option.mem_def.mp hja)
        have h2 : ub = j := Option.some.inj (Option.mem_def.mp hjb)
        rw [ha, hb, h1, h2]
      · rw [if_neg hb] at hjb
        cases hjb
    · rw [if_neg ha] at hja
      cases hja
  apply (List.perm_ext_iff_of_nodup hid hod).mpr
  intro j
  rw [mem_instar, mem_outstar, ← V.arcs_eq]
  constructor
  · intro h
    exact (by simpa using V.arcs_symm (j, i) h)
  · intro h
    exact (by simpa using V.arcs_symm (i, j) h)

section FamilyInjections

variable {I : RoutingInst} {E : MIPTopo} {W : WindowData} {ls cs : Bool} {c : LinCon}

theorem bipExact_of_implement (h : c ∈ bipImplementCons I) : c ∈ bipExactCons I := by
  unfold bipExactCons
  simp only [List.mem_append]
  tauto

theorem bipExact_of_flowOut (h : c ∈ bipFlowOutCons I) : c ∈ bipExactCons I := by
  unfold bipExactCons
  simp only [List.mem_append]
  tauto

theorem bipExact_of_flowIn (h : c ∈ bipFlowInCons I) : c ∈ bipExactCons I := by
  unfold bipExactCons
  simp only [List.mem_append]
  tauto

theorem bipExact_of_swap (h : c ∈ bipSwapCons I) : c ∈ bipExactCons I := by
  unfold bipExactCons
  simp only [List.mem_append]
  tauto

theorem bipExact_of_swapNoGate (h : c ∈ bipSwapNoGateCons I) : c ∈ bipExactCons I := by
  unfold bipExactCons
  simp only [List.mem_append]
  tauto

theorem bipExact_of_dummyNeeded (h : c ∈ bipDummyNeededCons I) : c ∈ bipExactCons I := by
  unfold bipExactCons
  simp only [List.mem_append]
  tauto

theorem bipExact_of_dummyPrec (h : c ∈ bipDummyPrecCons I) : c ∈ bipExactCons I := by
  unfold bipExactCons
  simp only [List.mem_append]
  tauto

theorem mip_of_legality (h : c ∈ mipLegalityCons I E) : c ∈ mipCons I E ls cs := by
  unfold mipCons
  simp only [List.mem_append]
  tauto

theorem mip_of_implement (h : c ∈ mipImplementCons I E) : c ∈ mipCons I E ls cs := by
  unfold mipCons
  simp only [List.mem_append]
  tauto

theorem mip_of_swap (h : c ∈ mipSwapCons I E) : c ∈ mipCons I E ls cs := by
  unfold mipCons
  simp only [List.mem_append]
  tauto

theorem mip_of_swapNoGate (h : c ∈ mipSwapNoGateCons I E) : c ∈ mipCons I E ls cs := by
  unfold mipCons
  simp only [List.mem_append]
  tauto

theorem mip_of_dummy (h : c ∈ mipDummyCons I E) : c ∈ mipCons I E ls cs := by
  unfold mipCons
  simp only [List.mem_append]
  tauto

theorem mip_of_dummyPrec (h : c ∈ mipDummyPrecCons I) : c ∈ mipCons I E ls cs := by
  unfold mipCons
  simp only [List.mem_append]
  tauto

theorem mip_of_flow (h : c ∈ mipFlowCons I E) : c ∈ mipCons I E ls cs := by
  unfold mipCons
  simp only [List.mem_append]
  tauto

theorem mip_of_eu (h : c ∈ mipEuCons I E) : c ∈ mipCons I E ls cs := by
  unfold mipCons
  simp only [List.mem_append]
  tauto

end FamilyInjections

section FamilyMembers

variable {I : RoutingInst} {E : MIPTopo} {t q i j : Nat} {g : Gate}

theorem mem_bipImplement (ht : t < I.depth) (hg : g ∈ I.gatesAt t) :
    (⟨I.arcs.map fun a => Var.y t g.1 g.2 a.1 a.2, [], Cmp.eq, 1⟩ : LinCon)
      ∈ bipImplementCons I :=
  List.mem_flatMap.mpr ⟨t, List.mem_range.mpr ht, List.mem_map.mpr ⟨g, hg, rfl⟩⟩

theorem mem_bipFlowOut (ht : t < I.depth - 1) (hq : q < I.n) (hi : i < I.n) :
    (⟨[Var.w t q i], Var.x t q i i :: (I.nbr i).map fun j => Var.x t q i j,
      Cmp.eq, 0⟩ : LinCon) ∈ bipFlowOutCons I :=
  List.mem_flatMap.mpr ⟨t, List.mem_range.mpr ht,
    List.mem_flatMap.mpr ⟨q, List.mem_range.mpr hq,
      List.mem_map.mpr ⟨i, List.mem_range.mpr hi, rfl⟩⟩⟩

theorem mem_bipFlowIn (ht : t < I.depth - 1) (hq : q < I.n) (hi : i < I.n) :
    (⟨[Var.w (t + 1) q i],
      Var.x t q i i :: (I.nbr i).map fun j => Var.x t q j i,
      Cmp.eq, 0⟩ : LinCon) ∈ bipFlowInCons I :=
  List.mem_flatMap.mpr ⟨t, List.mem_range.mpr ht,
    List.mem_flatMap.mpr ⟨q, List.mem_range.mpr hq,
      List.mem_map.mpr ⟨i, List.mem_range.mpr hi, rfl⟩⟩⟩

theorem mem_bipSwap (ht : t < I.depth - 1) (hg : g ∈ I.gatesAt t)
    (ha : (i, j) ∈ I.arcs) :
    (⟨[Var.x t g.1 i j], [Var.x t g.2 j i], Cmp.eq, 0⟩ : LinCon)
      ∈ bipSwapCons I :=
  List.mem_flatMap.mpr ⟨t, List.mem_range.mpr ht,
    List.mem_flatMap.mpr ⟨g, hg, List.mem_map.mpr ⟨(i, j), ha, rfl⟩⟩⟩

theorem mem_bipSwapNoGate (ht : t < I.depth - 1) (ha : (i, j) ∈ I.arcs) :
    (⟨(qNoGate I.n (I.gatesAt t)).map fun q => Var.x t q i j,
      (qNoGate I.n (I.gatesAt t)).map fun q => Var.x t q j i,
      Cmp.eq, 0⟩ : LinCon) ∈ bipSwapNoGateCons I :=
  List.mem_flatMap.mpr ⟨t, List.mem_range.mpr ht,
    List.mem_map.mpr ⟨(i, j), ha, rfl⟩⟩

theorem mem_bipDummyNeeded (ht : t < I.depth) (hd : I.isDummy t = true)
    (hq : q < I.n) :
    (⟨I.arcs.map fun a => Var.x t q a.1 a.2, [Var.z t], Cmp.le, 0⟩ : LinCon)
      ∈ bipDummyNeededCons I := by
  refine List.mem_flatMap.mpr ⟨t, List.mem_range.mpr ht, ?_⟩
  rw [if_pos hd]
  exact List.mem_map.mpr ⟨q, List.mem_range.mpr hq, rfl⟩

theorem mem_bipDummyPrec (ht : t < I.depth - 1) (hd : I.isDummy t = true)
    (hd' : I.isDummy (t + 1) = true) :
    (⟨[Var.z t], [Var.z (t + 1)], Cmp.ge, 0⟩ : LinCon) ∈ bipDummyPrecCons I := by
  refine List.mem_flatMap.mpr ⟨t, List.mem_range.mpr ht, ?_⟩
  rw [hd, hd']
  exact List.mem_singleton.mpr rfl

theorem mem_bipMcMain_lb (ht : t < I.depth - 1) (hg : g ∈ I.gatesAt t)
    (ha : (i, j) ∈ I.arcs) :
    mcLB t g.1 g.2 i j ∈ bipMcMainCons I :=
  List.mem_flatMap.mpr ⟨t, List.mem_range.mpr ht,
    List.mem_flatMap.mpr ⟨g, hg,
      List.mem_flatMap.mpr ⟨(i, j), ha, by simp⟩⟩⟩

theorem mem_bipMcMain_ub1 (ht : t < I.depth - 1) (hg : g ∈ I.gatesAt t)
    (ha : (i, j) ∈ I.arcs) :
    mcUBtight1 t g.1 g.2 i j ∈ bipMcMainCons I :=
  List.mem_flatMap.mpr ⟨t, List.mem_range.mpr ht,
    List.mem_flatMap.mpr ⟨g, hg,
      List.mem_flatMap.mpr ⟨(i, j), ha, by simp⟩⟩⟩

theorem mem_bipMcMain_ub2 (ht : t < I.depth - 1) (hg : g ∈ I.gatesAt t)
    (ha : (i, j) ∈ I.arcs) :
    mcUBtight2 t g.1 g.2 i j ∈ bipMcMainCons I :=
  List.mem_flatMap.mpr ⟨t, List.mem_range.mpr ht,
    List.mem_flatMap.mpr ⟨g, hg,
      List.mem_flatMap.mpr ⟨(i, j), ha, by simp⟩⟩⟩

theorem mem_bipMcLast_lb (hg : g ∈ I.gatesAt (I.depth - 1))
    (ha : (i, j) ∈ I.arcs) :
    mcLB (I.depth - 1) g.1 g.2 i j ∈ bipMcLastCons I :=
  List.mem_flatMap.mpr ⟨g, hg, List.mem_flatMap.mpr ⟨(i, j), ha, by simp⟩⟩

theorem mem_bipMcLast_ub1 (hg : g ∈ I.gatesAt (I.depth - 1))
    (ha : (i, j) ∈ I.arcs) :
    mcUBplain1 (I.depth - 1) g.1 g.2 i j ∈ bipMcLastCons I :=
  List.mem_flatMap.mpr ⟨g, hg, List.mem_flatMap.mpr ⟨(i, j), ha, by simp⟩⟩

theorem mem_bipMcLast_ub2 (hg : g ∈ I.gatesAt (I.depth - 1))
    (ha : (i, j) ∈ I.arcs) :
    mcUBplain2 (I.depth - 1) g.1 g.2 i j ∈ bipMcLastCons I :=
  List.mem_flatMap.mpr ⟨g, hg, List.mem_flatMap.mpr ⟨(i, j), ha, by simp⟩⟩

theorem mem_mipImplement (ht : t < I.depth) (hg : g ∈ I.gatesAt t) :
    (⟨E.arcs.map fun a => Var.y t g.1 g.2 a.1 a.2, [], Cmp.eq, 1⟩ : LinCon)
      ∈ mipImplementCons I E :=
  List.mem_flatMap.mpr ⟨t, List.mem_range.mpr ht, List.mem_map.mpr ⟨g, hg, rfl⟩⟩

theorem mem_mipLegal_tight1 (ht : t < I.depth) (htl : t ≠ I.depth - 1)
    (hg : g ∈ I.gatesAt t) (hi : i < I.n) (hj : j ∈ E.outstar i) :
    (⟨[Var.y t g.1 g.2 i j], [Var.x t g.1 i i, Var.x t g.1 i j], Cmp.le, 0⟩
      : LinCon) ∈ mipLegalityCons I E := by
  refine List.mem_flatMap.mpr ⟨t, List.mem_range.mpr ht,
    List.mem_flatMap.mpr ⟨g, hg,
      List.mem_flatMap.mpr ⟨i, List.mem_range.mpr hi,
        List.mem_flatMap.mpr ⟨j, hj, ?_⟩⟩⟩⟩
  rw [if_neg htl]
  simp

theorem mem_mipLegal_tight2 (ht : t < I.depth) (htl : t ≠ I.depth - 1)
    (hg : g ∈ I.gatesAt t) (hi : i < I.n) (hj : j ∈ E.outstar i) :
    (⟨[Var.y t g.1 g.2 i j], [Var.x t g.2 j j, Var.x t g.2 j i], Cmp.le, 0⟩
      : LinCon) ∈ mipLegalityCons I E := by
  refine List.mem_flatMap.mpr ⟨t, List.mem_range.mpr ht,
    List.mem_flatMap.mpr ⟨g, hg,
      List.mem_flatMap.mpr ⟨i, List.mem_range.mpr hi,
        List.mem_flatMap.mpr ⟨j, hj, ?_⟩⟩⟩⟩
  rw [if_neg htl]
  simp

theorem mem_mipLegal_plain1 (ht : t < I.depth) (htl : t = I.depth - 1)
    (hg : g ∈ I.gatesAt t) (hi : i < I.n) (hj : j ∈ E.outstar i) :
    (⟨[Var.y t g.1 g.2 i j], [Var.w t g.1 i], Cmp.le, 0⟩ : LinCon)
      ∈ mipLegalityCons I E := by
  refine List.mem_flatMap.mpr ⟨t, List.mem_range.mpr ht,
    List.mem_flatMap.mpr ⟨g, hg,
      List.mem_flatMap.mpr ⟨i, List.mem_range.mpr hi,
        List.mem_flatMap.mpr ⟨j, hj, ?_⟩⟩⟩⟩
  rw [if_pos htl]
  simp

theorem mem_mipLegal_plain2 (ht : t < I.depth) (htl : t = I.depth - 1)
    (hg : g ∈ I.gatesAt t) (hi : i < I.n) (hj : j ∈ E.outstar i) :
    (⟨[Var.y t g.1 g.2 i j], [Var.w t g.2 j], Cmp.le, 0⟩ : LinCon)
      ∈ mipLegalityCons I E := by
  refine List.mem_flatMap.mpr ⟨t, List.mem_range.mpr ht,
    List.mem_flatMap.mpr ⟨g, hg,
      List.mem_flatMap.mpr ⟨i, List.mem_range.mpr hi,
        List.mem_flatMap.mpr ⟨j, hj, ?_⟩⟩⟩⟩
  rw [if_pos htl]
  simp

theorem mem_mipSwap (ht : t < I.depth - 1) (hg : g ∈ I.gatesAt t)
    (ha : (i, j) ∈ E.arcs) :
    (⟨[Var.x t g.1 i j], [Var.x t g.2 j i], Cmp.eq, 0⟩ : LinCon)
      ∈ mipSwapCons I E :=
  List.mem_flatMap.mpr ⟨t, List.mem_range.mpr ht,
    List.mem_flatMap.mpr ⟨g, hg, List.mem_map.mpr ⟨(i, j), ha, rfl⟩⟩⟩

theorem mem_mipSwapNoGate (ht : t < I.depth - 1) (ha : (i, j) ∈ E.arcs) :
    (⟨(qNoGate I.n (I.gatesAt t)).map fun q => Var.x t q i j,
      (qNoGate I.n (I.gatesAt t)).map fun q => Var.x t q j i,
      Cmp.eq, 0⟩ : LinCon) ∈ mipSwapNoGateCons I E :=
  List.mem_flatMap.mpr ⟨t, List.mem_range.mpr ht,
    List.mem_map.mpr ⟨(i, j), ha, rfl⟩⟩

theorem mem_mipDummy_dummy (ht : t < I.depth) (hd : I.isDummy t = true)
    (hq : q < I.n) :
    (⟨E.arcs.map fun a => Var.x t q a.1 a.2, [Var.z t], Cmp.le, 0⟩ : LinCon)
      ∈ mipDummyCons I E := by
  refine List.mem_flatMap.mpr ⟨t, List.mem_range.mpr ht, ?_⟩
  rw [if_pos hd]
  exact List.mem_map.mpr ⟨q, List.mem_range.mpr hq, rfl⟩

theorem mem_mipDummy_real (ht : t < I.depth) (hd : I.isDummy t = false) :
    (⟨[Var.z t], [], Cmp.ge, 1⟩ : LinCon) ∈ mipDummyCons I E := by
  refine List.mem_flatMap.mpr ⟨t, List.mem_range.mpr ht, ?_⟩
  rw [hd]
  exact List.mem_singleton.mpr rfl

theorem mem_mipDummyPrec (ht : t < I.depth - 1) (hd : I.isDummy t = true)
    (hd' : I.isDummy (t + 1) = true) :
    (⟨[Var.z t], [Var.z (t + 1)], Cmp.ge, 0⟩ : LinCon) ∈ mipDummyPrecCons I := by
  refine List.mem_flatMap.mpr ⟨t, List.mem_range.mpr ht, ?_⟩
  rw [hd, hd']
  exact List.mem_singleton.mpr rfl

theorem mem_mipFlowOut (ht : t < I.depth - 1) (hq : q < I.n) (hi : i < I.n) :
    (⟨[Var.w t q i], Var.x t q i i :: (E.outstar i).map fun j => Var.x t q i j,
      Cmp.eq, 0⟩ : LinCon) ∈ mipFlowCons I E := by
  have ht' : t < I.depth := by omega
  refine List.mem_flatMap.mpr ⟨t, List.mem_range.mpr ht',
    List.mem_flatMap.mpr ⟨q, List.mem_range.mpr hq,
      List.mem_append.mpr (Or.inl ?_)⟩⟩
  rw [if_pos ht]
  exact List.mem_map.mpr ⟨i, List.mem_range.mpr hi, rfl⟩

theorem mem_mipFlowIn (ht : 0 < t) (ht2 : t < I.depth) (hq : q < I.n)
    (hi : i < I.n) :
    (⟨[Var.w t q i],
      Var.x (t - 1) q i i :: (E.instar i).map fun u => Var.x (t - 1) q u i,
      Cmp.eq, 0⟩ : LinCon) ∈ mipFlowCons I E := by
  refine List.mem_flatMap.mpr ⟨t, List.mem_range.mpr ht2,
    List.mem_flatMap.mpr ⟨q, List.mem_range.mpr hq,
      List.mem_append.mpr (Or.inr ?_)⟩⟩
  rw [if_pos ht]
  exact List.mem_map.mpr ⟨i, List.mem_range.mpr hi, rfl⟩

theorem mem_mipEu (ht : t < I.depth - 1) (he : (i, j) ∈ E.edges) :
    (⟨euRep I t i j, [Var.eu t i j], Cmp.eq, 0⟩ : LinCon) ∈ mipEuCons I E :=
  List.mem_flatMap.mpr ⟨t, List.mem_range.mpr ht,
    List.mem_map.mpr ⟨(i, j), he, rfl⟩⟩

end FamilyMembers

section SatShapes

variable {a : Var → Bool} {u v y z w : Var} {l l₁ l₂ : List Var}

@[simp] theorem evalSum_nil (a : Var → Bool) : evalSum a [] = 0 := rfl

theorem evalSum_cons (a : Var → Bool) (v : Var) (l : List Var) :
    evalSum a (v :: l) = bval (a v) + evalSum a l := by
  unfold evalSum
  rw [List.map_cons, List.sum_cons]

theorem evalSum_singleton (a : Var → Bool) (v : Var) :
    evalSum a [v] = bval (a v) := by
  rw [evalSum_cons, evalSum_nil, add_zero]

theorem evalSum_pair (a : Var → Bool) (u v : Var) :
    evalSum a [u, v] = bval (a u) + bval (a v) := by
  rw [evalSum_cons, evalSum_singleton]

theorem evalSum_nonneg (a : Var → Bool) (l : List Var) : 0 ≤ evalSum a l :=
  sum_bval_nonneg l fun v => a v

theorem evalSum_eq_zero_iff (a : Var → Bool) (l : List Var) :
    evalSum a l = 0 ↔ ∀ v ∈ l, a v = false :=
  sum_bval_eq_zero_iff l fun v => a v

theorem evalSum_member_le (a : Var → Bool) {l : List Var} {v : Var}
    (hv : v ∈ l) : bval (a v) ≤ evalSum a l := by
  unfold evalSum
  refine List.single_le_sum (fun x hx => ?_) _ (List.mem_map.mpr ⟨v, hv, rfl⟩)
  rcases List.mem_map.mp hx with ⟨v', _, rfl⟩
  exact bval_nonneg _

theorem exists_true_of_evalSum_eq_one {a : Var → Bool} {l : List Var}
    (h : evalSum a l = 1) : ∃ v ∈ l, a v = true := by
  by_contra hall
  push_neg at hall
  have : evalSum a l = 0 := (evalSum_eq_zero_iff a l).mpr
    fun v hv => by
      cases hav : a v
      · rfl
      · exact absurd hav (hall v hv)
  omega

theorem evalSum_append (a : Var → Bool) (l₁ l₂ : List Var) :
    evalSum a (l₁ ++ l₂) = evalSum a l₁ + evalSum a l₂ := by
  unfold evalSum
  rw [List.map_append, List.sum_append]

theorem evalSum_perm (a : Var → Bool) {l₁ l₂ : List Var} (h : l₁.Perm l₂) :
    evalSum a l₁ = evalSum a l₂ :=
  List.Perm.sum_eq (h.map _)

theorem sat_le1 : (⟨[y], [u], Cmp.le, 0⟩ : LinCon).sat a ↔
    bval (a y) ≤ bval (a u) := by
  unfold LinCon.sat
  dsimp only
  rw [evalSum_singleton, evalSum_singleton]
  omega

theorem sat_le2 : (⟨[y], [u, v], Cmp.le, 0⟩ : LinCon).sat a ↔
    bval (a y) ≤ bval (a u) + bval (a v) := by
  unfold LinCon.sat
  dsimp only
  rw [evalSum_singleton, evalSum_pair]
  omega

theorem sat_lb : (⟨[y], [u, v], Cmp.ge, -1⟩ : LinCon).sat a ↔
    bval (a u) + bval (a v) - 1 ≤ bval (a y) := by
  unfold LinCon.sat
  dsimp only
  rw [evalSum_singleton, evalSum_pair]
  omega

theorem sat_eq_pair : (⟨[u], [v], Cmp.eq, 0⟩ : LinCon).sat a ↔ a u = a v := by
  unfold LinCon.sat
  dsimp only
  rw [evalSum_singleton, evalSum_singleton]
  constructor
  · intro h
    cases hu : a u <;> cases hv : a v <;> rw [hu, hv] at h <;> simp_all [bval]
  · intro h
    rw [h]
    omega

theorem sat_flow : (⟨[w], v :: l, Cmp.eq, 0⟩ : LinCon).sat a ↔
    bval (a w) = bval (a v) + evalSum a l := by
  unfold LinCon.sat
  dsimp only
  rw [evalSum_singleton, evalSum_cons]
  omega

theorem sat_sum_eq_one : (⟨l, [], Cmp.eq, 1⟩ : LinCon).sat a ↔
    evalSum a l = 1 := by
  unfold LinCon.sat
  dsimp only
  rw [evalSum_nil]
  omega

theorem sat_sum_le : (⟨l, [z], Cmp.le, 0⟩ : LinCon).sat a ↔
    evalSum a l ≤ bval (a z) := by
  unfold LinCon.sat
  dsimp only
  rw [evalSum_singleton]
  omega

theorem sat_ge_pair : (⟨[u], [v], Cmp.ge, 0⟩ : LinCon).sat a ↔
    bval (a v) ≤ bval (a u) := by
  unfold LinCon.sat
  dsimp only
  rw [evalSum_singleton, evalSum_singleton]
  omega

theorem sat_ge_one : (⟨[u], [], Cmp.ge, 1⟩ : LinCon).sat a ↔ a u = true := by
  unfold LinCon.sat
  dsimp only
  rw [evalSum_singleton, evalSum_nil]
  cases hu : a u <;> simp [bval]

theorem sat_sums_eq : (⟨l₁, l₂, Cmp.eq, 0⟩ : LinCon).sat a ↔
    evalSum a l₁ = evalSum a l₂ := by
  unfold LinCon.sat
  dsimp only
  omega

theorem sat_sum_eq_var : (⟨l, [v], Cmp.eq, 0⟩ : LinCon).sat a ↔
    evalSum a l = bval (a v) := by
  unfold LinCon.sat
  dsimp only
  rw [evalSum_singleton]
  omega

end SatShapes

section LocationLemmas

theorem true_of_one_le_bval {b : Bool} (h : 1 ≤ bval b) : b = true := by
  cases b
  · simp at h
  · rfl

theorem lt_depth_of_mem_gatesAt {I : RoutingInst} {t : Nat} {g : Gate}
    (hg : g ∈ I.gatesAt t) : t < I.depth := by
  by_contra ht
  have : I.gatesAt t = [] := by
    unfold RoutingInst.gatesAt
    rw [List.getD_eq_getElem?_getD, List.getElem?_eq_none (by
      unfold RoutingInst.depth at ht
      omega), Option.getD_none]
  rw [this] at hg
  exact List.not_mem_nil _ hg

theorem gatesAt_mem {I : RoutingInst} {t : Nat} {g : Gate}
    (hg : g ∈ I.gatesAt t) : I.gatesAt t ∈ I.gates := by
  have ht : t < I.gates.length := lt_depth_of_mem_gatesAt hg
  unfold RoutingInst.gatesAt
  rw [List.getD_eq_getElem _ _ ht]
  exact List.getElem_mem ht

theorem w_unique {a : Var → Bool} {n t q i i' : Nat}
    (hrow : (rowCon n t q).sat a) (hi : i < n) (hi' : i' < n)
    (h1 : a (Var.w t q i) = true) (h2 : a (Var.w t q i') = true) : i = i' := by
  rcases (rowCon_sat_iff a n t q).mp hrow with ⟨j0, _, hu⟩
  rw [hu i ⟨hi, h1⟩, hu i' ⟨hi', h2⟩]

variable {I : RoutingInst} {E : MIPTopo}

theorem mem_nbr (V : SharedValid I E) {i j : Nat} (hi : i < I.n) :
    j ∈ I.nbr i ↔ (i, j) ∈ I.arcs := by
  rw [V.nbr_eq i hi, mem_outstar, V.arcs_eq]

/-- A `y` variable set to 1 locates the gate's two logical qubits on the
arc's endpoints (MIP side). -/
theorem mip_y_locates (V : SharedValid I E) {a : Var → Bool}
    (hm : satAll a (mipCons I E false false))
    {t : Nat} {g : Gate} (hg : g ∈ I.gatesAt t) {i j : Nat}
    (hij : (i, j) ∈ I.arcs) (hy : a (Var.y t g.1 g.2 i j) = true) :
    a (Var.w t g.1 i) = true ∧ a (Var.w t g.2 j) = true := by
  have ht : t < I.depth := lt_depth_of_mem_gatesAt hg
  have hi : i < I.n := (V.arcs_lt _ hij).1
  have hj : j < I.n := (V.arcs_lt _ hij).2
  have hg1 : g.1 < I.n := (V.gates_lt _ (gatesAt_mem hg) g hg).1
  have hg2 : g.2 < I.n := (V.gates_lt _ (gatesAt_mem hg) g hg).2
  have hji : (j, i) ∈ I.arcs := by simpa using V.arcs_symm _ hij
  have hjo : j ∈ E.outstar i := mem_outstar.mpr (V.arcs_eq ▸ hij)
  have hio : i ∈ E.outstar j := mem_outstar.mpr (V.arcs_eq ▸ hji)
  by_cases htl : t = I.depth - 1
  · have h1 := sat_le1.mp (hm _ (mip_of_legality (mem_mipLegal_plain1 ht htl hg hi hjo)))
    have h2 := sat_le1.mp (hm _ (mip_of_legality (mem_mipLegal_plain2 ht htl hg hi hjo)))
    rw [hy] at h1 h2
    exact ⟨true_of_one_le_bval h1, true_of_one_le_bval h2⟩
  · have htd : t < I.depth - 1 := by omega
    have h1 := sat_le2.mp (hm _ (mip_of_legality (mem_mipLegal_tight1 ht htl hg hi hjo)))
    have h2 := sat_le2.mp (hm _ (mip_of_legality (mem_mipLegal_tight2 ht htl hg hi hjo)))
    have hf1 := sat_flow.mp (hm _ (mip_of_flow (mem_mipFlowOut htd hg1 hi)))
    have hf2 := sat_flow.mp (hm _ (mip_of_flow (mem_mipFlowOut htd hg2 hj)))
    have hm1 : bval (a (Var.x t g.1 i j))
        ≤ evalSum a ((E.outstar i).map fun j' => Var.x t g.1 i j') :=
      evalSum_member_le a (List.mem_map.mpr ⟨j, hjo, rfl⟩)
    have hm2 : bval (a (Var.x t g.2 j i))
        ≤ evalSum a ((E.outstar j).map fun j' => Var.x t g.2 j j') :=
      evalSum_member_le a (List.mem_map.mpr ⟨i, hio, rfl⟩)
    rw [hy] at h1 h2
    constructor
    · apply true_of_one_le_bval
      rw [hf1]
      have := bval_nonneg (a (Var.x t g.1 i i))
      simp only [bval_true] at h1
      omega
    · apply true_of_one_le_bval
      rw [hf2]
      have := bval_nonneg (a (Var.x t g.2 j j))
      simp only [bval_true] at h2
      omega

/-- A `y` variable set to 1 locates the gate's two logical qubits on the
arc's endpoints (BIP side). -/
theorem bip_y_locates (V : SharedValid I E) {a : Var → Bool}
    (hb : satAll a (bipExactCons I))
    {t : Nat} {g : Gate} (hg : g ∈ I.gatesAt t) {i j : Nat}
    (hij : (i, j) ∈ I.arcs) (hy : a (Var.y t g.1 g.2 i j) = true) :
    a (Var.w t g.1 i) = true ∧ a (Var.w t g.2 j) = true := by
  have ht : t < I.depth := lt_depth_of_mem_gatesAt hg
  have hi : i < I.n := (V.arcs_lt _ hij).1
  have hj : j < I.n := (V.arcs_lt _ hij).2
  have hg1 : g.1 < I.n := (V.gates_lt _ (gatesAt_mem hg) g hg).1
  have hg2 : g.2 < I.n := (V.gates_lt _ (gatesAt_mem hg) g hg).2
  have hji : (j, i) ∈ I.arcs := by simpa using V.arcs_symm _ hij
  by_cases htl : t = I.depth - 1
  · subst htl
    have h1 := sat_le1.mp (hb _ (bipExact_of_mcLast (mem_bipMcLast_ub1 hg hij)))
    have h2 := sat_le1.mp (hb _ (bipExact_of_mcLast (mem_bipMcLast_ub2 hg hij)))
    rw [hy] at h1 h2
    exact ⟨true_of_one_le_bval h1, true_of_one_le_bval h2⟩
  · have htd : t < I.depth - 1 := by omega
    have h1 := sat_le2.mp (hb _ (bipExact_of_mcMain (mem_bipMcMain_ub1 htd hg hij)))
    have h2 := sat_le2.mp (hb _ (bipExact_of_mcMain (mem_bipMcMain_ub2 htd hg hij)))
    have hf1 := sat_flow.mp (hb _ (bipExact_of_flowOut (mem_bipFlowOut htd hg1 hi)))
    have hf2 := sat_flow.mp (hb _ (bipExact_of_flowOut (mem_bipFlowOut htd hg2 hj)))
    have hm1 : bval (a (Var.x t g.1 i j))
        ≤ evalSum a ((I.nbr i).map fun j' => Var.x t g.1 i j') :=
      evalSum_member_le a (List.mem_map.mpr ⟨j, (mem_nbr V hi).mpr hij, rfl⟩)
    have hm2 : bval (a (Var.x t g.2 j i))
        ≤ evalSum a ((I.nbr j).map fun j' => Var.x t g.2 j j') :=
      evalSum_member_le a (List.mem_map.mpr ⟨i, (mem_nbr V hj).mpr hji, rfl⟩)
    rw [hy] at h1 h2
    constructor
    · apply true_of_one_le_bval
      rw [hf1]
      have := bval_nonneg (a (Var.x t g.1 i i))
      simp only [bval_true] at h1
      omega
    · apply true_of_one_le_bval
      rw [hf2]
      have := bval_nonneg (a (Var.x t g.2 j j))
      simp only [bval_true] at h2
      omega

/-- The McCormick lower bound is implied by the MIP model's constraints
at 0/1 values. -/
theorem mip_mcLB_sat (V : SharedValid I E) {a : Var → Bool}
    (hm : satAll a (mipCons I E false false))
    {t : Nat} {g : Gate} (hg : g ∈ I.gatesAt t) {i j : Nat}
    (hij : (i, j) ∈ I.arcs) : (mcLB t g.1 g.2 i j).sat a := by
  have ht : t < I.depth := lt_depth_of_mem_gatesAt hg
  have hi : i < I.n := (V.arcs_lt _ hij).1
  have hj : j < I.n := (V.arcs_lt _ hij).2
  have hg1 : g.1 < I.n := (V.gates_lt _ (gatesAt_mem hg) g hg).1
  have hg2 : g.2 < I.n := (V.gates_lt _ (gatesAt_mem hg) g hg).2
  rw [mcLB, sat_lb]
  by_cases hw1 : a (Var.w t g.1 i) = true
  · by_cases hw2 : a (Var.w t g.2 j) = true
    · have himpl := sat_sum_eq_one.mp
        (hm _ (mip_of_implement (mem_mipImplement ht hg)))
      rcases exists_true_of_evalSum_eq_one himpl with ⟨v, hv, hvtrue⟩
      rcases List.mem_map.mp hv with ⟨ar, har, rfl⟩
      have har' : (ar.1, ar.2) ∈ I.arcs := by
        rw [V.arcs_eq]
        simpa using har
      have hloc := mip_y_locates V hm hg har' hvtrue
      have hrow1 := hm _ (mip_of_assignL (mem_mipAssignL ht hg1))
      have hrow2 := hm _ (mip_of_assignL (mem_mipAssignL ht hg2))
      have hi1 : ar.1 = i :=
        w_unique hrow1 (V.arcs_lt _ har').1 hi hloc.1 hw1
      have hj1 : ar.2 = j :=
        w_unique hrow2 (V.arcs_lt _ har').2 hj hloc.2 hw2
      rw [hi1, hj1] at hvtrue
      rw [hvtrue, hw1, hw2]
      simp
    · have h0 : bval (a (Var.w t g.2 j)) = 0 := by
        cases h : a (Var.w t g.2 j)
        · rfl
        · exact absurd h hw2
      rw [h0]
      have := bval_le_one (a (Var.w t g.1 i))
      have := bval_nonneg (a (Var.y t g.1 g.2 i j))
      omega
  · have h0 : bval (a (Var.w t g.1 i)) = 0 := by
      cases h : a (Var.w t g.1 i)
      · rfl
      · exact absurd h hw1
    rw [h0]
    have := bval_le_one (a (Var.w t g.2 j))
    have := bval_nonneg (a (Var.y t g.1 g.2 i j))
    omega

end LocationLemmas

section EuBound

variable {I : RoutingInst} {E : MIPTopo}

theorem evalSum_flatMap_le {a : Var → Bool} {α : Type} {l : List α}
    {f g : α → List Var}
    (h : ∀ x ∈ l, evalSum a (f x) ≤ evalSum a (g x)) :
    evalSum a (l.flatMap f) ≤ evalSum a (l.flatMap g) := by
  induction l with
  | nil => simp
  | cons x xs ih =>
    rw [List.flatMap_cons, List.flatMap_cons, evalSum_append, evalSum_append]
    have h1 := h x (List.mem_cons_self x xs)
    have h2 := ih fun y hy => h y (List.mem_cons_of_mem _ hy)
    omega

theorem evalSum_map_le {a : Var → Bool} {α : Type} {l : List α}
    {f g : α → Var}
    (h : ∀ x ∈ l, bval (a (f x)) ≤ bval (a (g x))) :
    evalSum a (l.map f) ≤ evalSum a (l.map g) := by
  induction l with
  | nil => simp
  | cons x xs ih =>
    rw [List.map_cons, List.map_cons, evalSum_cons, evalSum_cons]
    have h1 := h x (List.mem_cons_self x xs)
    have h2 := ih fun y hy => h y (List.mem_cons_of_mem _ hy)
    omega

/-- The logical qubits used by the gates of a layer, each listed once. -/
def usedList (gs : List Gate) : List Nat := gs.flatMap fun g => [g.1, g.2]

theorem mem_usedList {gs : List Gate} {q : Nat} :
    q ∈ usedList gs ↔ usedIn gs q = true := by
  unfold usedList usedIn
  rw [List.mem_flatMap, List.any_eq_true]
  constructor
  · rintro ⟨g, hg, hq⟩
    refine ⟨g, hg, ?_⟩
    rcases List.mem_cons.mp hq with rfl | hq
    · simp
    · rcases List.mem_singleton.mp hq with rfl
      simp
  · rintro ⟨g, hg, hq⟩
    rcases Bool.or_eq_true_iff.mp hq with h | h
    · exact ⟨g, hg, by rw [Nat.beq_eq_true_eq] at h; rw [h]; simp⟩
    · exact ⟨g, hg, by rw [Nat.beq_eq_true_eq] at h; rw [h]; simp⟩

theorem usedList_nodup {gs : List Gate}
    (hne : ∀ g ∈ gs, g.1 ≠ g.2)
    (hdisj : gs.Pairwise
      (fun g g' => g.1 ≠ g'.1 ∧ g.1 ≠ g'.2 ∧ g.2 ≠ g'.1 ∧ g.2 ≠ g'.2)) :
    (usedList gs).Nodup := by
  induction gs with
  | nil => simp [usedList]
  | cons g gs ih =>
    rw [usedList, List.flatMap_cons, List.nodup_append]
    rcases List.pairwise_cons.mp hdisj with ⟨hhead, htail⟩
    refine ⟨?_, ih (fun g' hg' => hne g' (List.mem_cons_of_mem _ hg')) htail, ?_⟩
    · simp [hne g (List.mem_cons_self g gs)]
    · intro q hq hq'
      rcases mem_usedList.mp hq' with hq''
      rw [usedIn, List.any_eq_true] at hq''
      rcases hq'' with ⟨g', hg', hmatch⟩
      have hd := hhead g' hg'
      rcases List.mem_cons.mp hq with rfl | hq
      · rcases Bool.or_eq_true_iff.mp hmatch with h | h <;>
          rw [Nat.beq_eq_true_eq] at h <;> omega
      · rcases List.mem_singleton.mp hq with rfl
        rcases Bool.or_eq_true_iff.mp hmatch with h | h <;>
          rw [Nat.beq_eq_true_eq] at h <;> omega

/-- Used and unused logical qubits together enumerate `range n`. -/
theorem used_unused_perm (V : SharedValid I E) {t : Nat}
    (hlay : I.gatesAt t ∈ I.gates ∨ I.gatesAt t = []) :
    (usedList (I.gatesAt t) ++ qNoGate I.n (I.gatesAt t)).Perm
      (List.range I.n) := by
  have hperm2 : ((List.range I.n).filter (fun q => usedIn (I.gatesAt t) q) ++
      (List.range I.n).filter (fun q => !usedIn (I.gatesAt t) q)).Perm
        (List.range I.n) := List.filter_append_perm _ _
  refine List.Perm.trans (List.Perm.append_right _ ?_) hperm2
  rcases hlay with hlay | hempty
  · have hnodup : (usedList (I.gatesAt t)).Nodup :=
      usedList_nodup (V.gates_ne _ hlay) (V.gates_disj _ hlay)
    apply (List.perm_ext_iff_of_nodup hnodup
      (List.Nodup.filter _ (List.nodup_range I.n))).mpr
    intro q
    rw [List.mem_filter, List.mem_range, mem_usedList]
    constructor
    · intro h
      refine ⟨?_, h⟩
      rw [usedIn, List.any_eq_true] at h
      rcases h with ⟨g, hg, hmatch⟩
      have hlt := V.gates_lt _ hlay g hg
      rcases Bool.or_eq_true_iff.mp hmatch with hh | hh <;>
        rw [Nat.beq_eq_true_eq] at hh <;> omega
    · exact fun h => h.2
  · rw [hempty]
    simp [usedList, usedIn]

/-- Any movement out of `i` forces occupancy of `i` (flow-out, pointwise). -/
theorem bip_x_le_w (V : SharedValid I E) {a : Var → Bool}
    (hb : satAll a (bipExactCons I)) {t q i j : Nat}
    (ht : t < I.depth - 1) (hq : q < I.n) (hij : (i, j) ∈ I.arcs) :
    bval (a (Var.x t q i j)) ≤ bval (a (Var.w t q i)) := by
  have hi : i < I.n := (V.arcs_lt _ hij).1
  have hf := sat_flow.mp (hb _ (bipExact_of_flowOut (mem_bipFlowOut ht hq hi)))
  have hmem : bval (a (Var.x t q i j))
      ≤ evalSum a ((I.nbr i).map fun j' => Var.x t q i j') :=
    evalSum_member_le a (List.mem_map.mpr ⟨j, (mem_nbr V hi).mpr hij, rfl⟩)
  have := bval_nonneg (a (Var.x t q i i))
  omega

/-- In every BIP-feasible assignment, the defining sum of an edge-used
variable is at most one: every unit of the sum pins a distinct logical
qubit to the physical qubit `i`. -/
theorem euRep_sum_le_one (V : SharedValid I E) {a : Var → Bool}
    (hb : satAll a (bipExactCons I)) {t i j : Nat}
    (ht : t < I.depth - 1) (hij : (i, j) ∈ I.arcs) :
    evalSum a (euRep I t i j) ≤ 1 := by
  have hi : i < I.n := (V.arcs_lt _ hij).1
  have hji : (j, i) ∈ I.arcs := by simpa using V.arcs_symm _ hij
  have hlay : I.gatesAt t ∈ I.gates ∨ I.gatesAt t = [] := by
    by_cases hne : I.gatesAt t = []
    · exact Or.inr hne
    · rcases List.exists_mem_of_ne_nil _ hne with ⟨g, hg⟩
      exact Or.inl (gatesAt_mem hg)
  unfold euRep
  rw [evalSum_append]
  have hgates : evalSum a ((I.gatesAt t).flatMap fun g =>
      [Var.y t g.1 g.2 i j, Var.y t g.1 g.2 j i])
      ≤ evalSum a ((I.gatesAt t).flatMap fun g =>
        [Var.w t g.1 i, Var.w t g.2 i]) := by
    apply evalSum_flatMap_le
    intro g hg
    rw [evalSum_pair, evalSum_pair]
    have h1 : bval (a (Var.y t g.1 g.2 i j)) ≤ bval (a (Var.w t g.1 i)) := by
      cases hy : a (Var.y t g.1 g.2 i j)
      · simp [bval_nonneg]
      · rw [(bip_y_locates V hb hg hij hy).1]
    have h2 : bval (a (Var.y t g.1 g.2 j i)) ≤ bval (a (Var.w t g.2 i)) := by
      cases hy : a (Var.y t g.1 g.2 j i)
      · simp [bval_nonneg]
      · rw [(bip_y_locates V hb hg hji hy).2]
    omega
  have hunused : evalSum a ((qNoGate I.n (I.gatesAt t)).map fun q =>
      Var.x t q i j)
      ≤ evalSum a ((qNoGate I.n (I.gatesAt t)).map fun q => Var.w t q i) := by
    apply evalSum_map_le
    intro q hq
    have hqlt : q < I.n := by
      rcases List.mem_filter.mp hq with ⟨hq', _⟩
      exact List.mem_range.mp hq'
    exact bip_x_le_w V hb ht hqlt hij
  have hflat : ((I.gatesAt t).flatMap fun g => [Var.w t g.1 i, Var.w t g.2 i])
      = (usedList (I.gatesAt t)).map fun q => Var.w t q i := by
    unfold usedList
    rw [List.map_flatMap]
    rfl
  have hcol : evalSum a ((usedList (I.gatesAt t)).map fun q => Var.w t q i)
      + evalSum a ((qNoGate I.n (I.gatesAt t)).map fun q => Var.w t q i)
      = 1 := by
    rw [← evalSum_append, ← List.map_append]
    rw [evalSum_perm a ((used_unused_perm V hlay).map fun q => Var.w t q i)]
    have hc := sat_sum_eq_one.mp (hb _ (bipExact_of_assignP
      (@mem_bipAssignP I t i (by omega) hi)))
    exact hc
  rw [hflat] at hgates
  omega

end EuBound

section Equivalence

variable {I : RoutingInst} {E : MIPTopo}

theorem evalSum_congr {a a' : Var → Bool} {l : List Var}
    (h : ∀ v ∈ l, a' v = a v) : evalSum a' l = evalSum a l := by
  unfold evalSum
  apply congrArg
  apply List.map_congr_left
  intro v hv
  rw [h v hv]

theorem edges_sub_arcs {i j : Nat} (h : (i, j) ∈ E.edges) : (i, j) ∈ E.arcs :=
  List.mem_append.mpr (Or.inl h)

/-- Every constraint of the exact BIP model is satisfied by every
MIP-feasible 0/1 assignment. -/
theorem mip_implies_bip (V : SharedValid I E) (a : Var → Bool)
    (hm : satAll a (mipCons I E false false)) : satAll a (bipExactCons I) := by
  intro c hc
  unfold bipExactCons at hc
  rcases List.mem_append.mp hc with hc | hDP
  · rcases List.mem_append.mp hc with hc | hDN
    · rcases List.mem_append.mp hc with hc | hSNG
      · rcases List.mem_append.mp hc with hc | hSW
        · rcases List.mem_append.mp hc with hc | hFI
          · rcases List.mem_append.mp hc with hc | hFO
            · rcases List.mem_append.mp hc with hc | hMCL
              · rcases List.mem_append.mp hc with hc | hMCM
                · rcases List.mem_append.mp hc with hc | hIMP
                  · rcases List.mem_append.mp hc with hA1 | hA2
                    · -- logical-qubit assignment rows
                      rcases List.mem_flatMap.mp hA1 with ⟨t, htm, h2⟩
                      rcases List.mem_map.mp h2 with ⟨q, hqm, rfl⟩
                      exact hm _ (mip_of_assignL (mem_mipAssignL
                        (List.mem_range.mp htm) (List.mem_range.mp hqm)))
                    · -- physical-qubit assignment columns
                      rcases List.mem_flatMap.mp hA2 with ⟨t, htm, h2⟩
                      rcases List.mem_map.mp h2 with ⟨j, hjm, rfl⟩
                      exact hm _ (mip_of_assignP (mem_mipAssignP
                        (List.mem_range.mp htm) (List.mem_range.mp hjm)))
                  · -- gate implementation
                    rcases List.mem_flatMap.mp hIMP with ⟨t, htm, h2⟩
                    rcases List.mem_map.mp h2 with ⟨g, hg, rfl⟩
                    rw [V.arcs_eq]
                    exact hm _ (mip_of_implement (mem_mipImplement
                      (List.mem_range.mp htm) hg))
                · -- McCormick, non-final steps
                  rcases List.mem_flatMap.mp hMCM with ⟨t, htm, h2⟩
                  have htd : t < I.depth - 1 := List.mem_range.mp htm
                  rcases List.mem_flatMap.mp h2 with ⟨g, hg, h3⟩
                  rcases List.mem_flatMap.mp h3 with ⟨ar, har, h4⟩
                  have har' : (ar.1, ar.2) ∈ I.arcs := by simpa using har
                  have hi : ar.1 < I.n := (V.arcs_lt _ har').1
                  have ht : t < I.depth := by omega
                  have htl : t ≠ I.depth - 1 := by omega
                  have hjo : ar.2 ∈ E.outstar ar.1 :=
                    mem_outstar.mpr (V.arcs_eq ▸ har')
                  simp only [List.mem_cons, List.not_mem_nil, or_false] at h4
                  rcases h4 with rfl | rfl | rfl
                  · exact mip_mcLB_sat V hm hg har'
                  · exact hm _ (mip_of_legality
                      (mem_mipLegal_tight1 ht htl hg hi hjo))
                  · have h := sat_le2.mp (hm _ (mip_of_legality
                      (mem_mipLegal_tight2 ht htl hg hi hjo)))
                    rw [mcUBtight2, sat_le2]
                    omega
              · -- McCormick, final step
                rcases List.mem_flatMap.mp hMCL with ⟨g, hg, h3⟩
                have ht : I.depth - 1 < I.depth := lt_depth_of_mem_gatesAt hg
                rcases List.mem_flatMap.mp h3 with ⟨ar, har, h4⟩
                have har' : (ar.1, ar.2) ∈ I.arcs := by simpa using har
                have hi : ar.1 < I.n := (V.arcs_lt _ har').1
                have hjo : ar.2 ∈ E.outstar ar.1 :=
                  mem_outstar.mpr (V.arcs_eq ▸ har')
                simp only [List.mem_cons, List.not_mem_nil, or_false] at h4
                rcases h4 with rfl | rfl | rfl
                · exact mip_mcLB_sat V hm hg har'
                · exact hm _ (mip_of_legality
                    (mem_mipLegal_plain1 ht rfl hg hi hjo))
                · exact hm _ (mip_of_legality
                    (mem_mipLegal_plain2 ht rfl hg hi hjo))
            · -- flow out
              rcases List.mem_flatMap.mp hFO with ⟨t, htm, h2⟩
              rcases List.mem_flatMap.mp h2 with ⟨q, hqm, h3⟩
              rcases List.mem_map.mp h3 with ⟨i, him, rfl⟩
              have hi : i < I.n := List.mem_range.mp him
              rw [V.nbr_eq i hi]
              exact hm _ (mip_of_flow (mem_mipFlowOut
                (List.mem_range.mp htm) (List.mem_range.mp hqm) hi))
          · -- flow in
            rcases List.mem_flatMap.mp hFI with ⟨s, hsm, h2⟩
            rcases List.mem_flatMap.mp h2 with ⟨q, hqm, h3⟩
            rcases List.mem_map.mp h3 with ⟨i, him, rfl⟩
            have hi : i < I.n := List.mem_range.mp him
            have hs : s < I.depth - 1 := List.mem_range.mp hsm
            have h := sat_flow.mp (hm _ (mip_of_flow (@mem_mipFlowIn I E
              (s + 1) q i (by omega) (by omega) (List.mem_range.mp hqm) hi)))
            rw [sat_flow]
            have hperm : evalSum a ((E.instar i).map fun u => Var.x s q u i)
                = evalSum a ((I.nbr i).map fun u => Var.x s q u i) := by
              rw [V.nbr_eq i hi]
              exact evalSum_perm a ((instar_perm_outstar V i).map _)
            rw [← hperm]
            simpa using h
        · -- gate-pair swap linking
          rcases List.mem_flatMap.mp hSW with ⟨t, htm, h2⟩
          rcases List.mem_flatMap.mp h2 with ⟨g, hg, h3⟩
          rcases List.mem_map.mp h3 with ⟨ar, har, rfl⟩
          have har' : (ar.1, ar.2) ∈ E.arcs := by
            rw [← V.arcs_eq]
            simpa using har
          exact hm _ (mip_of_swap (mem_mipSwap (List.mem_range.mp htm) hg har'))
      · -- swap balance of gate-free qubits
        rcases List.mem_flatMap.mp hSNG with ⟨t, htm, h2⟩
        rcases List.mem_map.mp h2 with ⟨ar, har, rfl⟩
        have har' : (ar.1, ar.2) ∈ E.arcs := by
          rw [← V.arcs_eq]
          simpa using har
        exact hm _ (mip_of_swapNoGate
          (mem_mipSwapNoGate (List.mem_range.mp htm) har'))
    · -- dummy-step activation
      rcases List.mem_flatMap.mp hDN with ⟨t, htm, h2⟩
      by_cases hd : I.isDummy t = true
      · rw [if_pos hd] at h2
        rcases List.mem_map.mp h2 with ⟨q, hqm, rfl⟩
        rw [V.arcs_eq]
        exact hm _ (mip_of_dummy (mem_mipDummy_dummy
          (List.mem_range.mp htm) hd (List.mem_range.mp hqm)))
      · rw [if_neg hd] at h2
        cases h2
  · -- dummy-step precedence
    rcases List.mem_flatMap.mp hDP with ⟨t, htm, h2⟩
    by_cases hdd : (I.isDummy t && I.isDummy (t + 1)) = true
    · rw [if_pos hdd] at h2
      rcases List.mem_singleton.mp h2 with rfl
      rcases Bool.and_eq_true_iff.mp hdd with ⟨hd, hd'⟩
      exact hm _ (mip_of_dummyPrec (mem_mipDummyPrec
        (List.mem_range.mp htm) hd hd'))
    · rw [if_neg hdd] at h2
      cases h2

/-- Every constraint of the MIP model is satisfied by the canonical
extension of a BIP-feasible 0/1 assignment. -/
theorem bip_implies_mip (V : SharedValid I E) (a : Var → Bool)
    (hb : satAll a (bipExactCons I)) :
    satAll (extendMIP I a) (mipCons I E false false) := by
  intro c hc
  unfold mipCons at hc
  rcases List.mem_append.mp hc with hc | hEU
  · rcases List.mem_append.mp hc with hc | hFL
    · rcases List.mem_append.mp hc with hc | hCS
      · rcases List.mem_append.mp hc with hc | hLS
        · rcases List.mem_append.mp hc with hc | hDP
          · rcases List.mem_append.mp hc with hc | hDN
            · rcases List.mem_append.mp hc with hc | hSNG
              · rcases List.mem_append.mp hc with hc | hSW
                · rcases List.mem_append.mp hc with hc | hIMP
                  · rcases List.mem_append.mp hc with hc | hLEG
                    · rcases List.mem_append.mp hc with hA1 | hA2
                      · -- logical-qubit assignment rows
                        rcases List.mem_flatMap.mp hA1 with ⟨q, hqm, h2⟩
                        rcases List.mem_map.mp h2 with ⟨t, htm, rfl⟩
                        have h := hb _ (bipExact_of_assignV (mem_bipAssignV
                          (List.mem_range.mp htm) (List.mem_range.mp hqm)))
                        refine (LinCon.sat_congr ?_ ?_).mp h
                        · intro v hv
                          rcases List.mem_map.mp hv with ⟨j, _, rfl⟩
                          rfl
                        · intro v hv
                          cases hv
                      · -- physical-qubit assignment columns
                        rcases List.mem_flatMap.mp hA2 with ⟨j, hjm, h2⟩
                        rcases List.mem_map.mp h2 with ⟨t, htm, rfl⟩
                        have h := hb _ (bipExact_of_assignP (mem_bipAssignP
                          (List.mem_range.mp htm) (List.mem_range.mp hjm)))
                        refine (LinCon.sat_congr ?_ ?_).mp h
                        · intro v hv
                          rcases List.mem_map.mp hv with ⟨q, _, rfl⟩
                          rfl
                        · intro v hv
                          cases hv
                    · -- gate legality
                      rcases List.mem_flatMap.mp hLEG with ⟨t, htm, h2⟩
                      have ht : t < I.depth := List.mem_range.mp htm
                      rcases List.mem_flatMap.mp h2 with ⟨g, hg, h3⟩
                      rcases List.mem_flatMap.mp h3 with ⟨i, him, h4⟩
                      rcases List.mem_flatMap.mp h4 with ⟨j, hjo, h5⟩
                      have hij : (i, j) ∈ I.arcs := by
                        rw [V.arcs_eq]
                        exact mem_outstar.mp hjo
                      by_cases htl : t = I.depth - 1
                      · rw [if_pos htl] at h5
                        subst htl
                        simp only [List.mem_cons, List.not_mem_nil, or_false]
                          at h5
                        rcases h5 with rfl | rfl
                        · have h := hb _ (bipExact_of_mcLast
                            (mem_bipMcLast_ub1 hg hij))
                          rw [sat_le1]
                          simpa using sat_le1.mp h
                        · have h := hb _ (bipExact_of_mcLast
                            (mem_bipMcLast_ub2 hg hij))
                          rw [sat_le1]
                          simpa using sat_le1.mp h
                      · rw [if_neg htl] at h5
                        have htd : t < I.depth - 1 := by omega
                        simp only [List.mem_cons, List.not_mem_nil, or_false]
                          at h5
                        rcases h5 with rfl | rfl
                        · have h := sat_le2.mp (hb _ (bipExact_of_mcMain
                            (mem_bipMcMain_ub1 htd hg hij)))
                          rw [sat_le2]
                          simp only [extendMIP_x, extendMIP_y]
                          omega
                        · have h := sat_le2.mp (hb _ (bipExact_of_mcMain
                            (mem_bipMcMain_ub2 htd hg hij)))
                          rw [sat_le2]
                          simp only [extendMIP_x, extendMIP_y]
                          omega
                  · -- gate implementation
                    rcases List.mem_flatMap.mp hIMP with ⟨t, htm, h2⟩
                    rcases List.mem_map.mp h2 with ⟨g, hg, rfl⟩
                    have h := hb _ (bipExact_of_implement (mem_bipImplement
                      (List.mem_range.mp htm) hg))
                    rw [V.arcs_eq] at h
                    refine (LinCon.sat_congr ?_ ?_).mp h
                    · intro v hv
                      rcases List.mem_map.mp hv with ⟨ar, _, rfl⟩
                      rfl
                    · intro v hv
                      cases hv
                · -- gate-pair swap linking
                  rcases List.mem_flatMap.mp hSW with ⟨t, htm, h2⟩
                  rcases List.mem_flatMap.mp h2 with ⟨g, hg, h3⟩
                  rcases List.mem_map.mp h3 with ⟨ar, har, rfl⟩
                  have har' : (ar.1, ar.2) ∈ I.arcs := by
                    rw [V.arcs_eq]
                    simpa using har
                  have h := hb _ (bipExact_of_swap (mem_bipSwap
                    (List.mem_range.mp htm) hg har'))
                  rw [sat_eq_pair]
                  simpa using sat_eq_pair.mp h
              · -- swap balance of gate-free qubits
                rcases List.mem_flatMap.mp hSNG with ⟨t, htm, h2⟩
                rcases List.mem_map.mp h2 with ⟨ar, har, rfl⟩
                have har' : (ar.1, ar.2) ∈ I.arcs := by
                  rw [V.arcs_eq]
                  simpa using har
                have h := hb _ (bipExact_of_swapNoGate (mem_bipSwapNoGate
                  (List.mem_range.mp htm) har'))
                rw [sat_sums_eq]
                rw [sat_sums_eq] at h
                have e1 : evalSum (extendMIP I a)
                      ((qNoGate I.n (I.gatesAt t)).map fun q =>
                        Var.x t q ar.1 ar.2)
                    = evalSum a ((qNoGate I.n (I.gatesAt t)).map fun q =>
                        Var.x t q ar.1 ar.2) := by
                  apply evalSum_congr
                  intro v hv
                  rcases List.mem_map.mp hv with ⟨q, _, rfl⟩
                  rfl
                have e2 : evalSum (extendMIP I a)
                      ((qNoGate I.n (I.gatesAt t)).map fun q =>
                        Var.x t q ar.2 ar.1)
                    = evalSum a ((qNoGate I.n (I.gatesAt t)).map fun q =>
                        Var.x t q ar.2 ar.1) := by
                  apply evalSum_congr
                  intro v hv
                  rcases List.mem_map.mp hv with ⟨q, _, rfl⟩
                  rfl
                rw [e1, e2]
                exact h
            · -- dummy-step activation and real-step lower bound
              rcases List.mem_flatMap.mp hDN with ⟨t, htm, h2⟩
              by_cases hd : I.isDummy t = true
              · rw [if_pos hd] at h2
                rcases List.mem_map.mp h2 with ⟨q, hqm, rfl⟩
                have h := hb _ (bipExact_of_dummyNeeded (mem_bipDummyNeeded
                  (List.mem_range.mp htm) hd (List.mem_range.mp hqm)))
                rw [V.arcs_eq] at h
                refine (LinCon.sat_congr ?_ ?_).mp h
                · intro v hv
                  rcases List.mem_map.mp hv with ⟨ar, _, rfl⟩
                  rfl
                · intro v hv
                  rcases List.mem_singleton.mp hv with rfl
                  exact extendMIP_z_dummy I a hd
              · rw [if_neg hd] at h2
                rcases List.mem_singleton.mp h2 with rfl
                rw [sat_ge_one]
                have hd' : I.isDummy t = false := by
                  cases h : I.isDummy t
                  · rfl
                  · exact absurd h hd
                simp [extendMIP, hd']
          · -- dummy-step precedence
            rcases List.mem_flatMap.mp hDP with ⟨t, htm, h2⟩
            by_cases hdd : (I.isDummy t && I.isDummy (t + 1)) = true
            · rw [if_pos hdd] at h2
              rcases List.mem_singleton.mp h2 with rfl
              rcases Bool.and_eq_true_iff.mp hdd with ⟨hd, hd'⟩
              have h := hb _ (bipExact_of_dummyPrec (mem_bipDummyPrec
                (List.mem_range.mp htm) hd hd'))
              rw [sat_ge_pair]
              rw [sat_ge_pair] at h
              rw [extendMIP_z_dummy I a hd, extendMIP_z_dummy I a hd']
              exact h
            · rw [if_neg hdd] at h2
              cases h2
        · -- line symmetry breaking (disabled)
          simp only [if_neg Bool.false_ne_true] at hLS
          cases hLS
      · -- cycle symmetry breaking (disabled)
        simp only [if_neg Bool.false_ne_true] at hCS
        cases hCS
    · -- flow constraints
      rcases List.mem_flatMap.mp hFL with ⟨t, htm, h2⟩
      have ht : t < I.depth := List.mem_range.mp htm
      rcases List.mem_flatMap.mp h2 with ⟨q, hqm, h3⟩
      have hq : q < I.n := List.mem_range.mp hqm
      rcases List.mem_append.mp h3 with h3 | h3
      · -- flow out
        by_cases htd : t < I.depth - 1
        · rw [if_pos htd] at h3
          rcases List.mem_map.mp h3 with ⟨i, him, rfl⟩
          have hi : i < I.n := List.mem_range.mp him
          have h := hb _ (bipExact_of_flowOut (mem_bipFlowOut htd hq hi))
          rw [V.nbr_eq i hi] at h
          refine (LinCon.sat_congr ?_ ?_).mp h
          · intro v hv
            rcases List.mem_singleton.mp hv with rfl
            rfl
          · intro v hv
            rcases List.mem_cons.mp hv with rfl | hv
            · rfl
            · rcases List.mem_map.mp hv with ⟨j, _, rfl⟩
              rfl
        · rw [if_neg htd] at h3
          cases h3
      · -- flow in
        by_cases ht0 : 0 < t
        · rw [if_pos ht0] at h3
          rcases List.mem_map.mp h3 with ⟨i, him, rfl⟩
          have hi : i < I.n := List.mem_range.mp him
          cases t with
          | zero => omega
          | succ s =>
            have hs : s < I.depth - 1 := by omega
            have h := sat_flow.mp (hb _ (bipExact_of_flowIn
              (mem_bipFlowIn hs hq hi)))
            rw [sat_flow]
            have hperm : evalSum a ((E.instar i).map fun u => Var.x s q u i)
                = evalSum a ((I.nbr i).map fun u => Var.x s q u i) := by
              rw [V.nbr_eq i hi]
              exact evalSum_perm a ((instar_perm_outstar V i).map _)
            have hcongr : evalSum (extendMIP I a)
                ((E.instar i).map fun u => Var.x (s + 1 - 1) q u i)
                = evalSum a ((E.instar i).map fun u => Var.x s q u i) := by
              apply evalSum_congr
              intro v hv
              rcases List.mem_map.mp hv with ⟨u, _, rfl⟩
              rfl
            rw [hcongr, hperm]
            simpa using h
        · rw [if_neg ht0] at h3
          cases h3
  · -- edge-used definition
    rcases List.mem_flatMap.mp hEU with ⟨t, htm, h2⟩
    have ht : t < I.depth - 1 := List.mem_range.mp htm
    rcases List.mem_map.mp h2 with ⟨e, he, rfl⟩
    have hij : (e.1, e.2) ∈ I.arcs := by
      rw [V.arcs_eq]
      exact edges_sub_arcs (by simpa using he)
    have hbound := euRep_sum_le_one V hb ht hij
    have hnn := evalSum_nonneg a (euRep I t e.1 e.2)
    rw [sat_sum_eq_var]
    have hcongr : evalSum (extendMIP I a) (euRep I t e.1 e.2)
        = evalSum a (euRep I t e.1 e.2) := by
      apply evalSum_congr
      intro v hv
      unfold euRep at hv
      rcases List.mem_append.mp hv with hv | hv
      · rcases List.mem_flatMap.mp hv with ⟨g, _, hv2⟩
        rcases List.mem_cons.mp hv2 with rfl | hv2
        · rfl
        · rcases List.mem_singleton.mp hv2 with rfl
          rfl
      · rcases List.mem_map.mp hv with ⟨q, _, rfl⟩
        rfl
    rw [hcongr]
    show evalSum a (euRep I t e.1 e.2)
      = bval (decide (evalSum a (euRep I t e.1 e.2) = 1))
    by_cases hS : evalSum a (euRep I t e.1 e.2) = 1
    · rw [hS]
      norm_num [bval]
    · have h0 : evalSum a (euRep I t e.1 e.2) = 0 := by omega
      rw [h0]
      norm_num [bval]

end Equivalence

/-- **C9 (amended).** The DOcplex exact model and the flat Cplex model
built from the same circuit and coupling graph encode the same
constraint system: every MIP-feasible 0/1 assignment is BIP-feasible,
and every BIP-feasible assignment extends — without touching the shared
`w`/`x`/`y` variables or the `z` variables of dummy steps — to a
MIP-feasible assignment (the extension only fixes the `w^d` of real
steps to 1 and sets each `eu` to its defining sum). -/
theorem c9_constraint_equivalence (I : RoutingInst) (E : MIPTopo)
    (V : SharedValid I E) :
    (∀ a : Var → Bool, satAll a (mipCons I E false false) →
      satAll a (bipExactCons I)) ∧
    (∀ a : Var → Bool, satAll a (bipExactCons I) →
      satAll (extendMIP I a) (mipCons I E false false) ∧
      (∀ t q j, extendMIP I a (Var.w t q j) = a (Var.w t q j)) ∧
      (∀ t p q i j, extendMIP I a (Var.y t p q i j) = a (Var.y t p q i j)) ∧
      (∀ t q i j, extendMIP I a (Var.x t q i j) = a (Var.x t q i j)) ∧
      (∀ t, I.isDummy t = true → extendMIP I a (Var.z t) = a (Var.z t))) :=
  ⟨fun a => mip_implies_bip V a,
   fun a hb => ⟨bip_implies_mip V a hb, fun _ _ _ => rfl, fun _ _ _ _ _ => rfl,
     fun _ _ _ _ => rfl, fun _ ht => extendMIP_z_dummy I a ht⟩⟩

/-- The depth objective of `MIPMappingModel.set_depth_obj`: coefficient
1 on every `w^d` variable. -/
noncomputable def mipDepthObj (I : RoutingInst) : ObjExpr :=
  (List.range I.depth).map fun t => ((1 : ℝ), Var.z t)

/-- The two-layer, two-qubit counterexample instance for the objective
comparison. -/
def instC9 : RoutingInst := ⟨2, [(0, 1), (1, 0)], nbrC3,
  buildGatesBIP [[(0, 1)], [(0, 1)]] 0⟩

/-- Its MIP topology (single edge). -/
def topoC9 : MIPTopo := ⟨[(0, 1)]⟩

/-- The feasible assignment that keeps both qubits in place. -/
def aStay : Var → Bool := fun v =>
  match v with
  | Var.w _ q j => q == j
  | Var.y _ _ _ i j => i == 0 && j == 1
  | Var.x _ q i j => q == i && i == j
  | Var.z _ => true
  | Var.eu _ i j => i == 0 && j == 1

/-- The feasible assignment that mirrors the first gate with a swap. -/
def aSwap : Var → Bool := fun v =>
  match v with
  | Var.w t q j => if t == 0 then q == j else q != j
  | Var.y t _ _ i j => if t == 0 then i == 0 && j == 1 else i == 1 && j == 0
  | Var.x _ q i j => q == i && j == 1 - i
  | Var.z _ => true
  | Var.eu _ _ _ => true

/-- **C9 (counterexample).** On a two-layer circuit both the stay and
the swap assignments are feasible for both models, the MIP depth
objective cannot tell them apart, but the BIP depth objective can (its
`0.01` movement tie-break); hence no additive shift — and a fortiori no
variable renaming or re-indexing — makes the two objective functions
agree on the shared feasible set. -/
theorem c9_objective_counterexample :
    satAll aStay (bipExactCons instC9) ∧
    satAll aSwap (bipExactCons instC9) ∧
    satAll (extendMIP instC9 aStay) (mipCons instC9 topoC9 false false) ∧
    satAll (extendMIP instC9 aSwap) (mipCons instC9 topoC9 false false) ∧
    objVal aStay (mipDepthObj instC9) = objVal aSwap (mipDepthObj instC9) ∧
    objVal aStay (bipDepthTerms instC9) ≠ objVal aSwap (bipDepthTerms instC9) ∧
    ¬ ∃ cshift : ℝ, ∀ a : Var → Bool, satAll a (bipExactCons instC9) →
        objVal a (bipDepthTerms instC9) = objVal a (mipDepthObj instC9) + cshift := by
  have hmiplist : mipDepthObj instC9 = [((1 : ℝ), Var.z 0), ((1 : ℝ), Var.z 1)] := by
    norm_num [mipDepthObj, instC9, RoutingInst.depth, buildGatesBIP, List.range_succ]
  have hbiplist : bipDepthTerms instC9 =
      [((0.01 : ℝ), Var.x 0 0 0 1), ((0.01 : ℝ), Var.x 0 0 1 0),
       ((0.01 : ℝ), Var.x 0 1 0 1), ((0.01 : ℝ), Var.x 0 1 1 0)] := by
    norm_num [bipDepthTerms, bipZTerms, instC9, RoutingInst.depth,
      RoutingInst.gatesAt, RoutingInst.isDummy, buildGatesBIP, List.range_succ]
  have hstay : objVal aStay (bipDepthTerms instC9) = 0 := by
    rw [hbiplist]
    norm_num [objVal, aStay, bval]
  have hswap : objVal aSwap (bipDepthTerms instC9) = 1 / 50 := by
    rw [hbiplist]
    norm_num [objVal, aSwap, bval]
  have hmipstay : objVal aStay (mipDepthObj instC9) = 2 := by
    rw [hmiplist]
    norm_num [objVal, aStay, bval]
  have hmipswap : objVal aSwap (mipDepthObj instC9) = 2 := by
    rw [hmiplist]
    norm_num [objVal, aSwap, bval]
  have hfstay : satAll aStay (bipExactCons instC9) := by decide
  have hfswap : satAll aSwap (bipExactCons instC9) := by decide
  refine ⟨hfstay, hfswap, by decide, by decide, ?_, ?_, ?_⟩
  · rw [hmipstay, hmipswap]
  · rw [hstay, hswap]
    norm_num
  · rintro ⟨cshift, hall⟩
    have h1 := hall aStay hfstay
    have h2 := hall aSwap hfswap
    rw [hstay, hmipstay] at h1
    rw [hswap, hmipswap] at h2
    have : (0 : ℝ) = 1 / 50 := by rw [h1, h2]
    norm_num at this

theorem c9_constraint_equivalence_witness :
    satAll (extendMIP instC9 aSwap) (mipCons instC9 topoC9 false false) ∧
    satAll (extendMIP instC9 aSwap) (bipExactCons instC9) := by
  have hV : SharedValid instC9 topoC9 := by
    refine ⟨?_, ?_, ?_, ?_, ?_, ?_, ?_, ?_, ?_⟩ <;> decide
  have h := c9_constraint_equivalence instC9 topoC9 hV
  have hmip := (h.2 aSwap (by decide)).1
  exact ⟨hmip, h.1 _ hmip⟩

/-!
## Concrete witnesses
-/

/-- A one-qubit instance with a single (dummy) time step. -/
def instMini : RoutingInst := ⟨1, [], fun _ => [], [[]]⟩

/-- A trivial window over the same instance. -/
def winMini : WindowData := ⟨[[]], 1, fun _ => [], fun _ _ => 0⟩

/-- An edgeless MIP topology. -/
def topoMini : MIPTopo := ⟨[]⟩

/-- The all-true assignment. -/
def aTrue : Var → Bool := fun _ => true

theorem c1_assignment_bijection_witness :
    rowCon 1 0 0 ∈ bipExactCons instMini ∧ wBijAt aTrue 1 0 := by
  have h := c1_assignment_bijection instMini winMini topoMini false false
  exact ⟨h.1 0 (by decide) 0 (by decide),
         h.2.2.2.2.2.2.1 aTrue (by decide) 0 (by decide)⟩

theorem c3_mccormick_linking_witness :
    mcUBtight1 0 0 1 0 1 ∈ bipHeurCons instC3 winC3 ∧
    mcLB 3 0 1 0 1 ∈ bipExactCons instC3 := by
  have h := c3_mccormick_linking instC3 winC3
  exact ⟨((h.2.2 0 (by decide) (0, 1) (by decide) (0, 1) (by decide)).2.1
            (by decide)).1,
         (h.2.1 (0, 1) (by decide) (0, 1) (by decide)).1⟩

theorem c4_window_fixing_witness :
    Var.z 0 ∈ fixedVars instMini winMini ∧
    applyFix instMini winMini (fun _ => 0) (fun _ => (0, 1)) (Var.z 0) = (0, 0) ∧
    applyFix instMini winMini (fun _ => 0) (fun _ => (0, 1)) (Var.w 1 0 0) = (0, 1) := by
  have h := c4_window_fixing instMini winMini (fun _ => 0) (fun _ => (0, 1))
  exact ⟨(h.1 (Var.z 0)).mpr (Or.inr (Or.inr (Or.inr ⟨0, by decide, by decide, rfl⟩))),
         h.2.1 _ (by decide), h.2.2 _ (by decide)⟩

theorem c5_time_budget_witness :
    windowTimeLimit 3 1 0 = 1 * ((3 : ℚ) - 0) / ((3 : ℚ) * ((3 : ℚ) + 1) / 2) ∧
    (timeShares 3 1).sum = 1 := by
  have h := c5_time_budget 3 1 (by norm_num) (by norm_num)
  refine ⟨?_, h.2.2.2.2.1⟩
  have h0 := h.1 0 (by norm_num)
  simpa using h0

theorem c6_split_adjustment_witness :
    adjustSplits 7 5 ≤ max 1 ((5 : Int) - 2) ∧ adjustSplits 2 2 = 1 :=
  ⟨(c6_split_adjustment 5).2.1 7 (by norm_num),
   (c6_split_adjustment 2).2.2 (by norm_num) 2 (by norm_num)⟩

theorem c7_layered_schedule_witness :
    (buildGatesBIP [[(0, 1)], [(0, 1)]] 1).length = 2 + 1 * (2 - 1) ∧
    buildGatesMIP [[(0, 1)], [(0, 1)]] 1 = buildGatesBIP [[(0, 1)], [(0, 1)]] 1 := by
  have h := c7_layered_schedule [[(0, 1)], [(0, 1)]] 1 (by decide) (by decide)
  exact ⟨h.1, h.2.1⟩

theorem c10_last_layer_access_witness :
    (pyGet (buildGatesBIP [[(0, 1)]] 0)
      (((buildGatesBIP [[(0, 1)]] 0).length : Int) - 1)).isSome = true :=
  (c10_last_layer_access 0).2 [[(0, 1)]] (by decide)

end QiskitBIP
